import Mathlib

/-!
Verification development for the WineFonts manifest compiler.

The model below is a shallow embedding of the repository's two scripts:

* the build script (the `script:build` entry): it reads the source catalog
  (fonts.json), resolves every installation's dependency reference
  (`_localPath` or `_url`) to a deduplicated Download record, stages local
  assets into the output directory, and writes the compiled manifest
  `{version, downloads, fonts}`;
* `src/utils/format.js` (the `script:format` entry): the formatting pass that
  reorders arrays and replaces the reserved sentinel id `<UUID>`.

External effects are modelled explicitly:

* the filesystem the catalog lives in is a function `readFile : String → Option Bytes`;
* the network is a function `fetchUrl : String → FetchResult`; a node-fetch
  promise rejection is `FetchResult.transportError`; a completed HTTP exchange
  is `FetchResult.response status body` (node-fetch resolves even for
  non-success statuses such as 404); a body stream that errors while piping is
  modelled by `body = none`;
* `crypto`'s SHA-256 hex digest, `normalize-url`, `path.normalize`,
  `path.extname` and `encodeURIComponent` are opaque function parameters of
  `Config` — the scripts treat them as black boxes;
* `randomUUID` is modelled as a supply `uuid : Nat → String` consumed in call
  order (the build state carries the call counter);
* the output directory is the `outDirFiles` association list of the build
  state; `outDirCleared` records that the script wiped it (`rmSync` +
  `mkdirSync`) at startup; `tempLive` counts the `mkdtempSync` temp
  directories that currently exist (`rmSync(tempFolder)` decrements it);
* `wroteManifest` records that the final `writeFileSync(outDir/fonts.json)`
  ran.

Machine integers do not occur: the scripts only move byte blobs around, so
bytes are opaque `Nat`s in a list.
-/

namespace WineFonts

/-- Bytes of a file, opaque to the scripts (they never inspect content). -/
abbrev Bytes := List Nat

/-- Outcome of a node-fetch call. A promise rejection (network/transport
failure) is `transportError`; otherwise an HTTP exchange completed with some
status (node-fetch does not reject on non-2xx statuses). `body = none` models
a response body stream that emits an error while being piped to disk. -/
inductive FetchResult where
  | transportError
  | response (status : Nat) (body : Option Bytes)
deriving DecidableEq, Repr

/-- The canonical identity key a Download record stores for dedup: the build
script stores `_type: 'localFile', _localFile: normalize(path)` or
`_type: 'url', _url: normalizeUrl(url)`; the constructor tag models `_type`
and the payload the normalized reference. -/
inductive DKey where
  | localFile (p : String)
  | url (u : String)
deriving DecidableEq, Repr

/-- A Download record as held in the in-memory `downloads` array of the build
script, including the internal dedup key (the `_type`/`_localFile`/`_url`
fields). -/
structure DownloadRec where
  id : String
  downloadURL : String
  fileSize : Nat
  hash : String
  key : DKey
deriving DecidableEq, Repr

/-- A Download record as serialized into the output manifest (internal fields
stripped by the final `.map` in the build script). -/
structure DownloadOut where
  id : String
  downloadURL : String
  fileSize : Nat
  hash : String
deriving DecidableEq, Repr

/-- An Installation object. `localPath`/`url` model the optional `_localPath`
and `_url` attributes (`some ""` models the attribute present with an empty
string value), `download` the compiled `download` attribute. `files` is the
cabextract payload. -/
structure Installation where
  type : String
  files : List String
  localPath : Option String
  url : Option String
  download : Option String
deriving DecidableEq, Repr

/-- A Font as found in the source catalog. `extra` models any further
attributes a source Font object may carry besides the six the scripts know
about (attribute name paired with an opaque value). -/
structure FontSrc where
  id : String
  name : String
  shortName : String
  publisher : String
  categories : List String
  installations : List Installation
  extra : List (String × String)
deriving DecidableEq, Repr

/-- A Font as emitted by the build script's `font(i)` projection: an object
literal with exactly the six known attributes, so the type has no `extra`
field (anything else on a source Font is dropped). -/
structure FontOut where
  id : String
  name : String
  shortName : String
  publisher : String
  categories : List String
  installations : List Installation
deriving DecidableEq, Repr

/-- A group of fonts (name plus the ids of the member fonts); only the format
pass touches groups. -/
structure Group where
  name : String
  fonts : List String
deriving DecidableEq, Repr

/-- The source catalog document (fonts.json). `extra` models further
top-level attributes besides `fonts` and `groups`. -/
structure Catalog where
  fonts : List FontSrc
  groups : List Group
  extra : List (String × String)
deriving DecidableEq, Repr

/-- The compiled output document: the build script assembles a fresh object
literal with exactly `version`, `downloads` and `fonts` (the source document's
`groups` and any other top-level attribute do not appear). -/
structure OutManifest where
  version : String
  downloads : List DownloadOut
  fonts : List FontOut
deriving DecidableEq, Repr

/-- The environment of one build run: configuration read from env vars
(`VERSION`, `URL_PREFIX`), the opaque library functions the script calls, the
`randomUUID` supply, the local filesystem and the network. `prefixURL`
embeds the script's `urlPrefix` variable. -/
structure Config where
  version : String
  prefixURL : String
  uuid : Nat → String
  sha256 : Bytes → String
  normalizeUrl : String → String
  normalizePath : String → String
  extname : String → String
  encodeURIComponent : String → String
  readFile : String → Option Bytes
  fetchUrl : String → FetchResult
  stringify : OutManifest → Bytes

/-- Failure of a build run (the rejected promise that reaches `main().catch`,
which prints it and exits with a non-zero code). -/
inductive BuildErr where
  | fetchError (url : String)
  | streamError (url : String)
  | readError (path : String)
deriving DecidableEq, Repr

/-- Mutable state of one build run: the in-memory `downloads` array, the
`randomUUID` call counter, the contents of the output directory, whether the
output directory was wiped, the number of currently-live temp directories, a
log of the keys for which the fetch/hash resolver actually ran, and whether
the final manifest file was written. -/
structure BuildState where
  downloads : List DownloadRec
  uuidCount : Nat
  outDirFiles : List (String × Bytes)
  outDirCleared : Bool
  tempLive : Nat
  resolverCalls : List DKey
  wroteManifest : Bool
deriving DecidableEq, Repr

/-- JavaScript truthiness of a possibly-absent string (`undefined` and the
empty string are falsy). -/
def strTruthy : Option String → Bool
  | some s => if s = "" then false else true
  | none => false

/-- JS truthiness filter on the result of the downloadExists helpers: `null`
and the empty string are falsy. -/
def optTruthy : Option String → Option String
  | some s => if s = "" then none else some s
  | none => none

/-- Lexicographic `<` on character lists by code point, the way the JS `<`
operator compares strings (code-unit by code-unit; identical for the scripts'
data, which stays below the surrogate range). -/
def charsLtB : List Char → List Char → Bool
  | _, [] => false
  | [], _ :: _ => true
  | a :: as, b :: bs =>
    if a.toNat < b.toNat then true
    else if b.toNat < a.toNat then false
    else charsLtB as bs

/-- JS `<` on strings. -/
def strLtB (a b : String) : Bool := charsLtB a.data b.data

/-- JS `<` on two possibly-undefined strings: any comparison involving
`undefined` is false (NaN semantics). -/
def jsLtO : Option String → Option String → Bool
  | some a, some b => strLtB a b
  | _, _ => false

/-- The three-way string comparator pattern used throughout both scripts:
`if (a < b) return -1; else if (a > b) return 1; else return 0`. -/
def strCmp (a b : String) : Int :=
  if strLtB a b then -1 else if strLtB b a then 1 else 0

/-- Non-descending test derived from `strCmp` (what a comparator-based sort by
`strCmp` guarantees between neighbours). Also models the default
`Array.prototype.sort()` on strings. -/
def strLeB (a b : String) : Bool := decide (strCmp a b ≤ 0)

/-- The build script's `sortByDownloadID` comparator: primarily `type`,
secondarily `download` (both with JS `<`, so `undefined` downloads compare
equal to everything). -/
def cmpInstDl (a b : Installation) : Int :=
  if strLtB a.type b.type then -1
  else if strLtB b.type a.type then 1
  else if jsLtO a.download b.download then -1
  else if jsLtO b.download a.download then 1
  else 0

/-- Non-descending test for `cmpInstDl`. -/
def instDlLeB (a b : Installation) : Bool := decide (cmpInstDl a b ≤ 0)

/-- The `sortByName` comparator of both scripts, as a non-descending test. -/
def fontNameLeB (a b : FontSrc) : Bool := strLeB a.name b.name

/-- The final `downloads` comparator of the build script (by `id`), as a
non-descending test. -/
def dlIdLeB (a b : DownloadOut) : Bool := strLeB a.id b.id

/-- `sortByName` applied to groups in format.js, as a non-descending test. -/
def groupNameLeB (a b : Group) : Bool := strLeB a.name b.name

/-- format.js: `sortByTypeThenLocalPathOrURL` — primarily `type`, then URLs
before local paths, then the reference string itself (JS `<` with undefined
semantics). -/
def cmpInstFmt (a b : Installation) : Int :=
  if strLtB a.type b.type then -1
  else if strLtB b.type a.type then 1
  else
    let aD : String := if a.localPath.isSome then "localpath" else "url"
    let bD : String := if b.localPath.isSome then "localpath" else "url"
    if aD = "url" ∧ bD = "localpath" then -1
    else if aD = "localpath" ∧ bD = "url" then 1
    else
      let aS : Option String := if aD = "url" then a.url else a.localPath
      let bS : Option String := if bD = "url" then b.url else b.localPath
      if jsLtO aS bS then -1 else if jsLtO bS aS then 1 else 0

/-- Non-descending test for `cmpInstFmt`. -/
def instFmtLeB (a b : Installation) : Bool := decide (cmpInstFmt a b ≤ 0)

/-- Insert into a sorted list, keeping stability: the JS engines' stable sort
restricted to a consistent comparator produces exactly this order. -/
def orderedInsertB (le : α → α → Bool) (a : α) : List α → List α
  | [] => [a]
  | b :: l => if le a b then a :: b :: l else b :: orderedInsertB le a l

/-- Stable insertion sort by a boolean non-descending test; models
`Array.prototype.sort(comparator)` (stable per the ECMAScript spec). -/
def insertionSortB (le : α → α → Bool) : List α → List α
  | [] => []
  | a :: l => orderedInsertB le a (insertionSortB le l)

/-- downloadExistsLocalFile: linear scan of `downloads` for a record whose
`_type` is 'localFile' and whose `_localFile` equals `normalize(localFile)`;
returns its id, else null. -/
def downloadExistsLocalFile (cfg : Config) (downloads : List DownloadRec)
    (localFile : String) : Option String :=
  (downloads.find? fun d => decide (d.key = DKey.localFile (cfg.normalizePath localFile))).map
    fun d => d.id

/-- downloadExistsURL: linear scan for a record whose `_type` is 'url' and
whose `_url` equals `normalizeUrl(url)`. -/
def downloadExistsURL (cfg : Config) (downloads : List DownloadRec)
    (url : String) : Option String :=
  (downloads.find? fun d => decide (d.key = DKey.url (cfg.normalizeUrl url))).map
    fun d => d.id

/-- addLocalFileDownload: generate a fresh id, copy the referenced file into
the output directory as `<id><extname>`, and push a record whose
`downloadURL` is `urlPrefix + encodeURIComponent(id + extension)`, whose
`fileSize`/`hash` are taken from the source file, and whose dedup key is the
normalized path. Reading a missing file is the fatal I/O error the sync fs
calls would throw. The resolver log records that the fetch/hash work ran. -/
def addLocalFileDownload (cfg : Config) (localFile : String) (s : BuildState) :
    Except BuildErr String × BuildState :=
  let id := cfg.uuid s.uuidCount
  let s1 : BuildState :=
    { s with uuidCount := s.uuidCount + 1,
             resolverCalls := s.resolverCalls ++ [DKey.localFile (cfg.normalizePath localFile)] }
  match cfg.readFile localFile with
  | none => (Except.error (BuildErr.readError localFile), s1)
  | some bytes =>
    let extension := cfg.extname localFile
    let d : DownloadRec :=
      { id := id,
        downloadURL := cfg.prefixURL ++ cfg.encodeURIComponent (id ++ extension),
        fileSize := bytes.length,
        hash := cfg.sha256 bytes,
        key := DKey.localFile (cfg.normalizePath localFile) }
    (Except.ok id,
     { s1 with downloads := s1.downloads ++ [d],
               outDirFiles := s1.outDirFiles ++ [(id ++ extension, bytes)] })

/-- addURLDownload: make a temp directory, generate a fresh id, fetch the
URL; a transport error rethrows before the cleanup line runs, and a body
stream error rejects the piping promise likewise before cleanup, so in both
failure paths the temp directory stays live. On success a record is pushed —
note the script never inspects `response.status`/`response.ok`, so the body of
a non-success response is recorded like any other — and only then is the temp
directory removed. `downloadURL` is the original url verbatim; the dedup key
is the normalized url. -/
def addURLDownload (cfg : Config) (url : String) (s : BuildState) :
    Except BuildErr String × BuildState :=
  let s1 : BuildState := { s with tempLive := s.tempLive + 1 }
  let id := cfg.uuid s1.uuidCount
  let s2 : BuildState :=
    { s1 with uuidCount := s1.uuidCount + 1,
              resolverCalls := s1.resolverCalls ++ [DKey.url (cfg.normalizeUrl url)] }
  match cfg.fetchUrl url with
  | FetchResult.transportError => (Except.error (BuildErr.fetchError url), s2)
  | FetchResult.response _ none => (Except.error (BuildErr.streamError url), s2)
  | FetchResult.response _ (some bytes) =>
    let d : DownloadRec :=
      { id := id,
        downloadURL := url,
        fileSize := bytes.length,
        hash := cfg.sha256 bytes,
        key := DKey.url (cfg.normalizeUrl url) }
    (Except.ok id,
     { s2 with downloads := s2.downloads ++ [d],
               tempLive := s2.tempLive - 1 })

/-- The dependency dispatch of addFromObject: `_localPath` present (in the
`typeof !== 'undefined'` sense, so even the empty string) takes priority; the
dedup lookup result passes through a JS truthiness check before being reused.
Only the `download` attribute of the object is written here. -/
def resolveRef (cfg : Config) (obj : Installation) (s : BuildState) :
    Except BuildErr Installation × BuildState :=
  match obj.localPath with
  | some p =>
    match optTruthy (downloadExistsLocalFile cfg s.downloads p) with
    | some id => (Except.ok { obj with download := some id }, s)
    | none =>
      match addLocalFileDownload cfg p s with
      | (Except.ok id, s1) => (Except.ok { obj with download := some id }, s1)
      | (Except.error e, s1) => (Except.error e, s1)
  | none =>
    match obj.url with
    | some u =>
      match optTruthy (downloadExistsURL cfg s.downloads u) with
      | some id => (Except.ok { obj with download := some id }, s)
      | none =>
        match addURLDownload cfg u s with
        | (Except.ok id, s1) => (Except.ok { obj with download := some id }, s1)
        | (Except.error e, s1) => (Except.error e, s1)
    | none => (Except.ok obj, s)

/-- The trailing cleanup of addFromObject: `if (localPath) delete
obj._localPath; if (url) delete obj._url` — a plain truthiness test on the
original values, so a present-but-empty reference string is NOT deleted. -/
def cleanupRefs (localPath url : Option String) (i : Installation) : Installation :=
  let i1 := if strTruthy localPath then { i with localPath := none } else i
  if strTruthy url then { i1 with url := none } else i1

/-- addFromObject: resolve the dependency reference of one installation into
a `download` id (creating the Download on first sight of its canonical key),
then delete the truthy raw reference fields. -/
def addFromObject (cfg : Config) (obj : Installation) (s : BuildState) :
    Except BuildErr Installation × BuildState :=
  match resolveRef cfg obj s with
  | (Except.ok i1, s1) => (Except.ok (cleanupRefs obj.localPath obj.url i1), s1)
  | (Except.error e, s1) => (Except.error e, s1)

/-- The `switch (installation.type)` in both scripts: only the 'cabextract'
case sorts the `files` array. -/
def sortFilesIfCab (i : Installation) : Installation :=
  if i.type = "cabextract" then { i with files := insertionSortB strLeB i.files } else i

/-- One turn of the build script's inner loop: addFromObject, then the
per-type files sort. -/
def processInstallation (cfg : Config) (i : Installation) (s : BuildState) :
    Except BuildErr Installation × BuildState :=
  match addFromObject cfg i s with
  | (Except.ok i1, s1) => (Except.ok (sortFilesIfCab i1), s1)
  | (Except.error e, s1) => (Except.error e, s1)

/-- The build script's inner loop over one font's installations; the first
rejected promise aborts the run. -/
def processInstList (cfg : Config) : List Installation → BuildState →
    Except BuildErr (List Installation) × BuildState
  | [], s => (Except.ok [], s)
  | i :: rest, s =>
    match processInstallation cfg i s with
    | (Except.error e, s1) => (Except.error e, s1)
    | (Except.ok i1, s1) =>
      match processInstList cfg rest s1 with
      | (Except.error e, s2) => (Except.error e, s2)
      | (Except.ok rest1, s2) => (Except.ok (i1 :: rest1), s2)

/-- One turn of the outer loop: process the installations, then
`font.installations = font.installations.sort(sortByDownloadID)`. -/
def processFont (cfg : Config) (f : FontSrc) (s : BuildState) :
    Except BuildErr FontSrc × BuildState :=
  match processInstList cfg f.installations s with
  | (Except.error e, s1) => (Except.error e, s1)
  | (Except.ok insts, s1) =>
    (Except.ok { f with installations := insertionSortB instDlLeB insts }, s1)

/-- The outer loop over all fonts in source order. -/
def processFonts (cfg : Config) : List FontSrc → BuildState →
    Except BuildErr (List FontSrc) × BuildState
  | [], s => (Except.ok [], s)
  | f :: rest, s =>
    match processFont cfg f s with
    | (Except.error e, s1) => (Except.error e, s1)
    | (Except.ok f1, s1) =>
      match processFonts cfg rest s1 with
      | (Except.error e, s2) => (Except.error e, s2)
      | (Except.ok rest1, s2) => (Except.ok (f1 :: rest1), s2)

/-- The build script's `font(i)` projection: an object literal with exactly
the six known attributes, categories sorted, installations sorted by
`sortByDownloadID`. Any other attribute of the source Font does not appear. -/
def fontProj (f : FontSrc) : FontOut :=
  { id := f.id,
    name := f.name,
    shortName := f.shortName,
    publisher := f.publisher,
    categories := insertionSortB strLeB f.categories,
    installations := insertionSortB instDlLeB f.installations }

/-- Strip a Download record of its internal `_type`/`_localFile`/`_url`
fields for serialization (the `.map` over `downloads` in the build script). -/
def stripRec (d : DownloadRec) : DownloadOut :=
  { id := d.id, downloadURL := d.downloadURL, fileSize := d.fileSize, hash := d.hash }

/-- Build state before the run: no downloads, no uuids consumed, the output
directory holding whatever a previous build left (`pre`). -/
def initState (pre : List (String × Bytes)) : BuildState :=
  { downloads := [], uuidCount := 0, outDirFiles := pre, outDirCleared := false,
    tempLive := 0, resolverCalls := [], wroteManifest := false }

/-- The whole build run (`main` of the build script): wipe and recreate the
output directory first, walk the catalog resolving and rewriting every
installation, then sort the fonts by name and project them, strip and sort
the download records by id, assemble `{version, downloads, fonts}` and write
it as fonts.json into the output directory. On the first rejected promise the
run stops where it is (`main().catch` → `process.exit(1)`); the state at that
point is returned alongside the error. -/
def compile (cfg : Config) (catalog : Catalog) (pre : List (String × Bytes)) :
    Except BuildErr OutManifest × BuildState :=
  let s0 : BuildState := { initState pre with outDirFiles := [], outDirCleared := true }
  match processFonts cfg catalog.fonts s0 with
  | (Except.error e, s1) => (Except.error e, s1)
  | (Except.ok fonts1, s1) =>
    let outFonts := (insertionSortB fontNameLeB fonts1).map fontProj
    let outDls := insertionSortB dlIdLeB (s1.downloads.map stripRec)
    let m : OutManifest := { version := cfg.version, downloads := outDls, fonts := outFonts }
    (Except.ok m,
     { s1 with outDirFiles := s1.outDirFiles ++ [("fonts.json", cfg.stringify m)],
               wroteManifest := true })

/-! Model of src/utils/format.js (the formatting pass). -/

/-- State of the format pass: the `randomUUID` call counter and the `uuids`
array of freshly generated ids. -/
structure FormatState where
  uuidCount : Nat
  newUUIDs : List String
deriving DecidableEq, Repr

/-- The in-place loop body of format.js for one font: replace the sentinel
id `<UUID>` by a fresh uuid (collecting it), sort the installations by
`sortByTypeThenLocalPathOrURL`, then sort the files of each cabextract
installation. -/
def formatFontPre (uuid : Nat → String) (f : FontSrc) (st : FormatState) :
    FontSrc × FormatState :=
  let idSt : String × FormatState :=
    if f.id = "<UUID>" then
      (uuid st.uuidCount,
       { uuidCount := st.uuidCount + 1, newUUIDs := st.newUUIDs ++ [uuid st.uuidCount] })
    else (f.id, st)
  let insts := (insertionSortB instFmtLeB f.installations).map sortFilesIfCab
  ({ f with id := idSt.1, installations := insts }, idSt.2)

/-- The format pass loop over all fonts in source order. -/
def formatFontsPre (uuid : Nat → String) : List FontSrc → FormatState →
    List FontSrc × FormatState
  | [], st => ([], st)
  | f :: rest, st =>
    let p := formatFontPre uuid f st
    let q := formatFontsPre uuid rest p.2
    (p.1 :: q.1, q.2)

/-- format.js's own `font(i)` projection: the six known attributes, categories
sorted, installations sorted by `sortByTypeThenLocalPathOrURL`. Run on a Font
of the data model (no extra attributes) it only reorders. -/
def formatFontProj (f : FontSrc) : FontSrc :=
  { id := f.id,
    name := f.name,
    shortName := f.shortName,
    publisher := f.publisher,
    categories := insertionSortB strLeB f.categories,
    installations := insertionSortB instFmtLeB f.installations,
    extra := [] }

/-- The whole format pass: per-font sentinel replacement and reordering, fonts
sorted by name and projected, each group's font-id list sorted, groups sorted
by name; `version`, `downloads` and any other top-level attribute of the
document are left as they are. Returns the rewritten document and the list of
freshly generated uuids. -/
def formatPass (uuid : Nat → String) (c : Catalog) : Catalog × List String :=
  let p := formatFontsPre uuid c.fonts { uuidCount := 0, newUUIDs := [] }
  let fonts2 := (insertionSortB fontNameLeB p.1).map formatFontProj
  let groups1 := c.groups.map fun g => { g with fonts := insertionSortB strLeB g.fonts }
  let groups2 := insertionSortB groupNameLeB groups1
  ({ c with fonts := fonts2, groups := groups2 }, p.2.newUUIDs)

/-! Specification vocabulary used by the claims. -/

/-- `l` extended on the right (the only way the run ever changes the
`downloads` array and the output directory listing). -/
def Extends (l l1 : List α) : Prop := ∃ t, l1 = l ++ t

/-- The canonical identity key an installation's dependency reference
normalizes to, mirroring addFromObject's dispatch: a present `_localPath`
(even empty) takes priority, else a present `_url`, else no dependency. -/
def keyOfRef (cfg : Config) (i : Installation) : Option DKey :=
  match i.localPath with
  | some p => some (DKey.localFile (cfg.normalizePath p))
  | none =>
    match i.url with
    | some u => some (DKey.url (cfg.normalizeUrl u))
    | none => none

/-- The id of the first Download record registered for a canonical key. -/
def findIdForKey (s : BuildState) (k : DKey) : Option String :=
  (s.downloads.find? fun d => decide (d.key = k)).map fun d => d.id

/-- Well-formedness of one Download record relative to the run's state: its
hash and fileSize were computed over the exact bytes of its asset — for a
local source those bytes are the source file's and a byte-identical copy is
staged in the output directory as `<id><extension>`, with `downloadURL` built
from the configured prefix; for a remote source they are the fetched body and
`downloadURL` is the original url verbatim. -/
def RecordWF (cfg : Config) (s : BuildState) (d : DownloadRec) : Prop :=
  ∃ b : Bytes, d.hash = cfg.sha256 b ∧ d.fileSize = b.length ∧
    ((∃ p, d.key = DKey.localFile (cfg.normalizePath p) ∧ cfg.readFile p = some b ∧
        (d.id ++ cfg.extname p, b) ∈ s.outDirFiles ∧
        d.downloadURL = cfg.prefixURL ++ cfg.encodeURIComponent (d.id ++ cfg.extname p)) ∨
     (∃ u st, d.key = DKey.url (cfg.normalizeUrl u) ∧
        cfg.fetchUrl u = FetchResult.response st (some b) ∧
        d.downloadURL = u))

/-- Registry invariant maintained across the run: every record id is a uuid
from the supply (with index below the call counter), ids and canonical keys
are duplicate-free, the resolver ran exactly once per registered record, and
every record is well-formed. -/
def Inv (cfg : Config) (s : BuildState) : Prop :=
  (∀ d ∈ s.downloads, ∃ j, j < s.uuidCount ∧ d.id = cfg.uuid j) ∧
  (s.downloads.map fun d => d.id).Nodup ∧
  (s.downloads.map fun d => d.key).Nodup ∧
  s.resolverCalls = s.downloads.map (fun d => d.key) ∧
  (∀ d ∈ s.downloads, RecordWF cfg s d)

/-- Frame facts relating the state before and after a successful processing
step: the registry and output directory only grow, the uuid counter only
advances, and the wipe flag, temp-directory count and manifest flag are
untouched. -/
def StepOK (s s1 : BuildState) : Prop :=
  Extends s.downloads s1.downloads ∧ Extends s.outDirFiles s1.outDirFiles ∧
  s.uuidCount ≤ s1.uuidCount ∧ s1.outDirCleared = s.outDirCleared ∧
  s1.tempLive = s.tempLive ∧ s1.wroteManifest = s.wroteManifest

/-- Facts that hold across every processing step, the failing ones included:
neither the wipe flag of the output directory nor the manifest-written flag is
ever touched while the catalog is being walked. -/
def Frame (s s1 : BuildState) : Prop :=
  s1.outDirCleared = s.outDirCleared ∧ s1.wroteManifest = s.wroteManifest

/-- How one source installation relates to its compiled form, relative to the
final state `S`: type and (for cabextract, sorted) files carried over, truthy
raw references deleted, and the `download` attribute equal to the id
registered for the installation's canonical key (or untouched if the
installation has no dependency reference). -/
def InstRel (cfg : Config) (S : BuildState) (i i1 : Installation) : Prop :=
  i1.type = i.type ∧
  i1.files = (if i.type = "cabextract" then insertionSortB strLeB i.files else i.files) ∧
  i1.localPath = (if strTruthy i.localPath then none else i.localPath) ∧
  i1.url = (if strTruthy i.url then none else i.url) ∧
  (∀ k, keyOfRef cfg i = some k →
    i1.download = findIdForKey S k ∧ ∃ d ∈ S.downloads, d.key = k) ∧
  (keyOfRef cfg i = none → i1.download = i.download)

/-- How one source font relates to its processed form (before the final
by-name sort and projection). -/
def FontRel (cfg : Config) (S : BuildState) (f f1 : FontSrc) : Prop :=
  f1.id = f.id ∧ f1.name = f.name ∧ f1.shortName = f.shortName ∧
  f1.publisher = f.publisher ∧ f1.categories = f.categories ∧ f1.extra = f.extra ∧
  ∃ l1, List.Forall₂ (InstRel cfg S) f.installations l1 ∧
    f1.installations = insertionSortB instDlLeB l1

/-- A Font with any extra attributes removed; the compiled output is
invariant under scrubbing because the build script only ever reads the six
known attributes. -/
def scrubFont (f : FontSrc) : FontSrc := { f with extra := [] }

/-- How the format pass may change one installation: nothing but the order of
`files` (in particular the dependency reference fields and `download` are
untouched). -/
def InstFmtRel (i i1 : Installation) : Prop :=
  i1.type = i.type ∧ i1.localPath = i.localPath ∧ i1.url = i.url ∧
  i1.download = i.download ∧ List.Perm i1.files i.files

/-- How the format pass may change one font of the data model: the sentinel
id `<UUID>` becomes a fresh uuid from the supply, any other id is kept, and
all remaining attributes are at most reordered. -/
def FontFmtRel (uuid : Nat → String) (f f1 : FontSrc) : Prop :=
  (f.id = "<UUID>" → ∃ j, f1.id = uuid j) ∧ (f.id ≠ "<UUID>" → f1.id = f.id) ∧
  f1.name = f.name ∧ f1.shortName = f.shortName ∧ f1.publisher = f.publisher ∧
  List.Perm f1.categories f.categories ∧ f1.extra = f.extra ∧
  ∃ l1, List.Forall₂ InstFmtRel f.installations l1 ∧ List.Perm f1.installations l1

/-! The conclusions of the individual claims, packaged so that witnesses can
re-state them at concrete inputs. -/

/-- Dedup invariant: at most one Download record per canonical key; every
referenced key owns exactly one record whose id is what `findIdForKey`
assigns (so all same-key installations are given the same id, as the
`InstRel` inside `FontRel` pins every compiled `download` to
`findIdForKey S`); output ids are duplicate-free; the fetch/hash resolver ran
at most once per key. -/
def Claim1Concl (cfg : Config) (catalog : Catalog) (out : OutManifest)
    (S : BuildState) : Prop :=
  (∀ d1 ∈ S.downloads, ∀ d2 ∈ S.downloads, d1.key = d2.key → d1 = d2) ∧
  (∀ f ∈ catalog.fonts, ∀ i ∈ f.installations, ∀ k, keyOfRef cfg i = some k →
    ∃ d ∈ S.downloads, d.key = k ∧ findIdForKey S k = some d.id ∧
      stripRec d ∈ out.downloads) ∧
  (∃ fonts1, List.Forall₂ (FontRel cfg S) catalog.fonts fonts1 ∧
    out.fonts = (insertionSortB fontNameLeB fonts1).map fontProj) ∧
  (out.downloads.map fun d => d.id).Nodup ∧
  (∀ k : DKey, S.resolverCalls.count k ≤ 1)

/-- No raw reference leakage, in its amended form: every compiled
installation has both reference fields gone; every referenced canonical key
owns a Download record whose stripped form reaches the output (so, through
the `InstRel` pairing of the third conjunct, every compiled installation
whose source carried a dependency reference gets a `download` equal to
`findIdForKey S` of its key, the id of an existing `downloads` entry, while
a reference-free installation keeps its source `download` — absent if the
source had none). -/
def Claim3Concl (cfg : Config) (catalog : Catalog) (out : OutManifest)
    (S : BuildState) : Prop :=
  (∀ f1 ∈ out.fonts, ∀ i1 ∈ f1.installations,
    i1.localPath = none ∧ i1.url = none) ∧
  (∀ f ∈ catalog.fonts, ∀ i ∈ f.installations, ∀ k, keyOfRef cfg i = some k →
    ∃ d ∈ S.downloads, d.key = k ∧ findIdForKey S k = some d.id ∧
      stripRec d ∈ out.downloads) ∧
  (∃ fonts1, List.Forall₂ (FontRel cfg S) catalog.fonts fonts1 ∧
    out.fonts = (insertionSortB fontNameLeB fonts1).map fontProj)

/-- Canonical ordering of the compiled output: fonts by name, installations
by type then download id, categories and cabextract file lists
lexicographically, downloads by id. -/
def Claim5Concl (out : OutManifest) : Prop :=
  List.Pairwise (fun a b : FontOut => strLeB a.name b.name = true) out.fonts ∧
  (∀ f ∈ out.fonts,
    List.Pairwise (fun a b => instDlLeB a b = true) f.installations ∧
    List.Pairwise (fun a b => strLeB a b = true) f.categories ∧
    ∀ i ∈ f.installations, i.type = "cabextract" →
      List.Pairwise (fun a b => strLeB a b = true) i.files) ∧
  List.Pairwise (fun a b : DownloadOut => dlIdLeB a b = true) out.downloads

/-- Hash and size integrity: every output Download's hash and fileSize were
computed over the exact bytes of its asset — the staged (byte-identical) copy
of the source file for a local dependency, the fetched body for a remote
one. -/
def Claim6Concl (cfg : Config) (out : OutManifest) (S : BuildState) : Prop :=
  ∀ o ∈ out.downloads, ∃ b : Bytes, o.hash = cfg.sha256 b ∧ o.fileSize = b.length ∧
    ((∃ p, cfg.readFile p = some b ∧ (o.id ++ cfg.extname p, b) ∈ S.outDirFiles) ∨
     (∃ u st, cfg.fetchUrl u = FetchResult.response st (some b) ∧ o.downloadURL = u))

/-- downloadURL construction: locally-sourced records carry
`prefix ++ encodeURIComponent(id ++ extension)` and the asset staged as
`<id><extension>`; remotely-sourced records carry the original url verbatim
(their dedup key holding the normalized form). -/
def Claim8Concl (cfg : Config) (out : OutManifest) (S : BuildState) : Prop :=
  ∀ o ∈ out.downloads,
    ((∃ p b, cfg.readFile p = some b ∧
        o.downloadURL = cfg.prefixURL ++ cfg.encodeURIComponent (o.id ++ cfg.extname p) ∧
        (o.id ++ cfg.extname p, b) ∈ S.outDirFiles) ∨
     (∃ d ∈ S.downloads, stripRec d = o ∧ ∃ u st b,
        d.key = DKey.url (cfg.normalizeUrl u) ∧
        cfg.fetchUrl u = FetchResult.response st (some b) ∧ o.downloadURL = u))

/-- Frame property of the format pass on a catalog of the data model: fonts
are pointwise related by `FontFmtRel` up to reordering, groups are only
reordered, any other top-level attribute is untouched. -/
def Claim9Concl (uuid : Nat → String) (c : Catalog) : Prop :=
  (∃ l, List.Forall₂ (FontFmtRel uuid) c.fonts l ∧
    List.Perm (formatPass uuid c).1.fonts l) ∧
  (∃ g, List.Forall₂ (fun a b : Group => b.name = a.name ∧ List.Perm b.fonts a.fonts)
      c.groups g ∧ List.Perm (formatPass uuid c).1.groups g) ∧
  (formatPass uuid c).1.extra = c.extra

/-- Output projection: the compiled document is insensitive to the source
catalog's `groups`, its other top-level attributes and any extra attributes
on fonts; each compiled font's identity attributes come from a source font
(and the output types carry exactly the documented fields). -/
def Claim10Concl (cfg : Config) (pre : List (String × Bytes)) (c1 c2 : Catalog) : Prop :=
  compile cfg c1 pre = compile cfg c2 pre ∧
  ∀ out S, compile cfg c1 pre = (Except.ok out, S) →
    out.version = cfg.version ∧
    ∀ f1 ∈ out.fonts, ∃ f ∈ c1.fonts, f1.id = f.id ∧ f1.name = f.name ∧
      f1.shortName = f.shortName ∧ f1.publisher = f.publisher

/-! Concrete instances used by the witnesses and counterexamples. -/

/-- A deterministic uuid supply: a run of `n + 1` letters u (non-empty and
injective, as `randomUUID` is for all practical purposes). -/
def uuidT (n : Nat) : String := String.mk (List.replicate (n + 1) 'u')

/-- A cabextract installation literal. -/
def instCab (lp u : Option String) (fs : List String) : Installation :=
  { type := "cabextract", files := fs, localPath := lp, url := u, download := none }

/-- Environment of the success scenario: one local file `a.exe` and one live
url. -/
def cfgT : Config :=
  { version := "1.0.0", prefixURL := "https://e.com/", uuid := uuidT,
    sha256 := fun b => "sha" ++ toString b.length,
    normalizeUrl := fun u => u, normalizePath := fun p => p,
    extname := fun _ => ".exe", encodeURIComponent := fun s => s,
    readFile := fun p => if p = "a.exe" then some [1, 2, 3] else none,
    fetchUrl := fun u =>
      if u = "http://x/f" then FetchResult.response 200 (some [9, 9])
      else FetchResult.transportError,
    stringify := fun _ => [0] }

/-- Success-scenario catalog: two fonts, three installations, two of which
reference the same local file (so dedup is exercised). -/
def catT : Catalog :=
  { fonts :=
      [ { id := "f2", name := "B", shortName := "b", publisher := "p",
          categories := ["serif", "mono"],
          installations := [instCab (some "a.exe") none ["b.ttf", "a.ttf"]],
          extra := [] },
        { id := "f1", name := "A", shortName := "a", publisher := "q",
          categories := [],
          installations :=
            [instCab none (some "http://x/f") [], instCab (some "a.exe") none []],
          extra := [] } ],
    groups := [], extra := [] }

/-- The manifest the success scenario compiles to. -/
def outT : OutManifest :=
  (compile cfgT catT []).1.toOption.getD { version := "", downloads := [], fonts := [] }

/-- The final build state of the success scenario. -/
def sT : BuildState := (compile cfgT catT []).2

/-- Environment of the failure scenario: the local file resolves, every fetch
dies with a transport error. -/
def cfg2 : Config :=
  { version := "v", prefixURL := "P/", uuid := uuidT,
    sha256 := fun b => "sha" ++ toString b.length,
    normalizeUrl := fun u => u, normalizePath := fun p => p,
    extname := fun _ => ".exe", encodeURIComponent := fun s => s,
    readFile := fun p => if p = "a.exe" then some [1, 2, 3] else none,
    fetchUrl := fun _ => FetchResult.transportError,
    stringify := fun _ => [0] }

/-- Failure-scenario catalog: a local asset is staged first, then a remote
fetch fails. -/
def cat2 : Catalog :=
  { fonts :=
      [ { id := "f", name := "N", shortName := "n", publisher := "p", categories := [],
          installations :=
            [instCab (some "a.exe") none [], instCab none (some "http://dead/f") []],
          extra := [] } ],
    groups := [], extra := [] }

/-- Pre-existing content of the output directory before the failure
scenario runs. -/
def pre2 : List (String × Bytes) := [("precious.bin", [7])]

/-- The final build state of the failure scenario. -/
def s2T : BuildState := (compile cfg2 cat2 pre2).2

/-- Environment for the missing-download-field scenario: one real local file
`a.exe`, every other read fails (in particular the empty path, which on disk
is the parent directory), every fetch dies. -/
def cfg3 : Config :=
  { version := "v", prefixURL := "P/", uuid := uuidT,
    sha256 := fun b => "sha" ++ toString b.length,
    normalizeUrl := fun u => u, normalizePath := fun p => p,
    extname := fun _ => ".exe", encodeURIComponent := fun s => s,
    readFile := fun p => if p = "a.exe" then some [1, 2, 3] else none,
    fetchUrl := fun _ => FetchResult.transportError,
    stringify := fun _ => [0] }

/-- Missing-download-field catalog: one ordinary local-file installation next
to one installation carrying no dependency reference at all. -/
def cat3 : Catalog :=
  { fonts :=
      [ { id := "f", name := "N", shortName := "n", publisher := "p", categories := [],
          installations :=
            [ instCab (some "a.exe") none [],
              { type := "z", files := [], localPath := none, url := none,
                download := none } ],
          extra := [] } ],
    groups := [], extra := [] }

/-- The manifest the missing-download-field scenario compiles to. -/
def out3 : OutManifest :=
  (compile cfg3 cat3 []).1.toOption.getD { version := "", downloads := [], fonts := [] }

/-- The final build state of the missing-download-field scenario. -/
def s3T : BuildState := (compile cfg3 cat3 []).2

/-- The fonts of a compiled result (empty if the compile failed). -/
def fontsOfResult (r : Except BuildErr OutManifest × BuildState) : List FontOut :=
  match r.1 with
  | Except.ok o => o.fonts
  | Except.error _ => []

/-- Environment for the non-success-response scenario: the url answers with
HTTP status 404 and an error-page body of two bytes. -/
def cfg4 : Config :=
  { version := "v", prefixURL := "P/", uuid := uuidT,
    sha256 := fun b => "sha" ++ toString b.length,
    normalizeUrl := fun u => u, normalizePath := fun p => p,
    extname := fun _ => "", encodeURIComponent := fun s => s,
    readFile := fun _ => none,
    fetchUrl := fun u =>
      if u = "http://x/404" then FetchResult.response 404 (some [72, 105])
      else FetchResult.transportError,
    stringify := fun _ => [0] }

/-- Catalog whose only installation depends on the 404-answering url. -/
def cat4 : Catalog :=
  { fonts :=
      [ { id := "f", name := "N", shortName := "n", publisher := "p", categories := [],
          installations := [instCab none (some "http://x/404") []],
          extra := [] } ],
    groups := [], extra := [] }

/-- The manifest the 404 scenario compiles to. -/
def out4 : OutManifest :=
  (compile cfg4 cat4 []).1.toOption.getD { version := "", downloads := [], fonts := [] }

/-- Catalog for the format-pass scenario: a sentinel-id font and a group. -/
def catF : Catalog :=
  { fonts :=
      [ { id := "<UUID>", name := "B", shortName := "b", publisher := "p",
          categories := ["serif", "mono"],
          installations :=
            [instCab (some "z.exe") none ["b.ttf", "a.ttf"], instCab none (some "http://x") []],
          extra := [] } ],
    groups := [{ name := "G", fonts := ["y", "x"] }], extra := [("k", "v")] }

/-- First catalog of the projection scenario: extra attributes everywhere. -/
def c10a : Catalog :=
  { fonts :=
      [ { id := "f", name := "N", shortName := "n", publisher := "p",
          categories := ["serif"],
          installations := [instCab (some "a.exe") none []],
          extra := [("comment", "internal note")] } ],
    groups := [{ name := "G", fonts := ["f"] }], extra := [("draft", "yes")] }

/-- Second catalog of the projection scenario: same fonts modulo extras, no
groups, no other top-level attributes. -/
def c10b : Catalog :=
  { fonts :=
      [ { id := "f", name := "N", shortName := "n", publisher := "p",
          categories := ["serif"],
          installations := [instCab (some "a.exe") none []],
          extra := [] } ],
    groups := [], extra := [] }

/-! Generic facts about right extension of lists and about the stable
insertion sort that models the comparator-based JS sorts. -/

theorem extends_refl (l : List α) : Extends l l := ⟨[], by simp⟩

theorem extends_trans {l1 l2 l3 : List α} (h1 : Extends l1 l2) (h2 : Extends l2 l3) :
    Extends l1 l3 := by
  obtain ⟨t1, rfl⟩ := h1
  obtain ⟨t2, rfl⟩ := h2
  exact ⟨t1 ++ t2, by simp⟩

theorem extends_mem {l1 l2 : List α} (h : Extends l1 l2) {a : α} (ha : a ∈ l1) : a ∈ l2 := by
  obtain ⟨t, rfl⟩ := h
  exact List.mem_append_left _ ha

theorem extends_push (l : List α) (a : α) : Extends l (l ++ [a]) := ⟨[a], rfl⟩

theorem find?_extends {p : α → Bool} {l1 l2 : List α} (h : Extends l1 l2) {a : α}
    (ha : l1.find? p = some a) : l2.find? p = some a := by
  obtain ⟨t, rfl⟩ := h
  induction l1 with
  | nil => simp [List.find?] at ha
  | cons x xs ih =>
    rw [List.cons_append]
    by_cases hx : p x
    · rw [List.find?_cons_of_pos _ hx] at ha ⊢
      exact ha
    · rw [List.find?_cons_of_neg _ hx] at ha ⊢
      exact ih ha

theorem find?_append_of_none {p : α → Bool} {l1 l2 : List α} (h : l1.find? p = none) :
    (l1 ++ l2).find? p = l2.find? p := by
  induction l1 with
  | nil => simp
  | cons x xs ih =>
    by_cases hx : p x
    · rw [List.find?_cons_of_pos _ hx] at h
      exact absurd h (by simp)
    · rw [List.find?_cons_of_neg _ hx] at h
      rw [List.cons_append, List.find?_cons_of_neg _ hx]
      exact ih h

theorem mem_orderedInsertB {le : α → α → Bool} {a x : α} :
    ∀ {l : List α}, x ∈ orderedInsertB le a l ↔ x = a ∨ x ∈ l := by
  intro l
  induction l with
  | nil => simp [orderedInsertB]
  | cons b t ih =>
    simp only [orderedInsertB]
    split
    · simp [List.mem_cons]
    · simp [List.mem_cons, ih]
      tauto

theorem perm_orderedInsertB (le : α → α → Bool) (a : α) :
    ∀ l : List α, List.Perm (orderedInsertB le a l) (a :: l)
  | [] => List.Perm.refl _
  | b :: t => by
    simp only [orderedInsertB]
    split
    · exact List.Perm.refl _
    · exact ((perm_orderedInsertB le a t).cons b).trans (List.Perm.swap a b t)

theorem perm_insertionSortB (le : α → α → Bool) :
    ∀ l : List α, List.Perm (insertionSortB le l) l
  | [] => List.Perm.refl _
  | a :: t =>
    (perm_orderedInsertB le a (insertionSortB le t)).trans
      ((perm_insertionSortB le t).cons a)

theorem mem_insertionSortB {le : α → α → Bool} {l : List α} {x : α} :
    x ∈ insertionSortB le l ↔ x ∈ l :=
  (perm_insertionSortB le l).mem_iff

theorem pairwise_orderedInsertB (le : α → α → Bool) (a : α) (l : List α)
    (htot : ∀ x ∈ a :: l, ∀ y ∈ a :: l, le x y = true ∨ le y x = true)
    (htr : ∀ x ∈ a :: l, ∀ y ∈ a :: l, ∀ z ∈ a :: l,
      le x y = true → le y z = true → le x z = true)
    (hp : List.Pairwise (fun x y => le x y = true) l) :
    List.Pairwise (fun x y => le x y = true) (orderedInsertB le a l) := by
  induction l with
  | nil => simp [orderedInsertB]
  | cons b t ih =>
    rcases List.pairwise_cons.mp hp with ⟨hb, hpt⟩
    have sub : ∀ x ∈ a :: t, x ∈ a :: b :: t := by
      intro x hx
      rcases List.mem_cons.mp hx with rfl | hxt
      · exact List.mem_cons_self _ _
      · exact List.mem_cons_of_mem _ (List.mem_cons_of_mem _ hxt)
    by_cases hab : le a b = true
    · simp only [orderedInsertB, if_pos hab]
      refine List.pairwise_cons.mpr ⟨?_, hp⟩
      intro y hy
      rcases List.mem_cons.mp hy with rfl | hyt
      · exact hab
      · exact htr a (by simp) b (by simp) y (sub y (List.mem_cons_of_mem _ hyt)) hab (hb y hyt)
    · simp only [orderedInsertB, if_neg hab]
      refine List.pairwise_cons.mpr ⟨?_, ?_⟩
      · intro y hy
        rcases mem_orderedInsertB.mp hy with heq | hyt
        · rw [heq]
          rcases htot a (by simp) b (by simp) with h | h
          · exact absurd h hab
          · exact h
        · exact hb y hyt
      · exact ih (fun x hx y hy => htot x (sub x hx) y (sub y hy))
          (fun x hx y hy z hz => htr x (sub x hx) y (sub y hy) z (sub z hz)) hpt

theorem sorted_insertionSortB (le : α → α → Bool) (l : List α)
    (htot : ∀ x ∈ l, ∀ y ∈ l, le x y = true ∨ le y x = true)
    (htr : ∀ x ∈ l, ∀ y ∈ l, ∀ z ∈ l, le x y = true → le y z = true → le x z = true) :
    List.Pairwise (fun x y => le x y = true) (insertionSortB le l) := by
  induction l with
  | nil => simp [insertionSortB]
  | cons a t ih =>
    simp only [insertionSortB]
    have sub : ∀ x ∈ a :: insertionSortB le t, x ∈ a :: t := by
      intro x hx
      rcases List.mem_cons.mp hx with rfl | hxt
      · exact List.mem_cons_self _ _
      · exact List.mem_cons_of_mem _ (mem_insertionSortB.mp hxt)
    have subt : ∀ x ∈ t, x ∈ a :: t := fun x hx => List.mem_cons_of_mem _ hx
    exact pairwise_orderedInsertB le a (insertionSortB le t)
      (fun x hx y hy => htot x (sub x hx) y (sub y hy))
      (fun x hx y hy z hz => htr x (sub x hx) y (sub y hy) z (sub z hz))
      (ih (fun x hx y hy => htot x (subt x hx) y (subt y hy))
        (fun x hx y hy z hz => htr x (subt x hx) y (subt y hy) z (subt z hz)))

theorem orderedInsertB_map (le : α → α → Bool) (g : α → α)
    (hg : ∀ x y, le (g x) (g y) = le x y) (a : α) :
    ∀ l : List α, orderedInsertB le (g a) (l.map g) = (orderedInsertB le a l).map g
  | [] => by simp [orderedInsertB]
  | b :: t => by
    simp only [List.map_cons, orderedInsertB, hg]
    split
    · simp
    · simp [orderedInsertB_map le g hg a t]

theorem insertionSortB_map (le : α → α → Bool) (g : α → α)
    (hg : ∀ x y, le (g x) (g y) = le x y) :
    ∀ l : List α, insertionSortB le (l.map g) = (insertionSortB le l).map g
  | [] => by simp [insertionSortB]
  | a :: t => by
    simp only [List.map_cons, insertionSortB, insertionSortB_map le g hg t]
    exact orderedInsertB_map le g hg a _

theorem forall2_mem_right {R : α → β → Prop} :
    ∀ {l : List α} {l1 : List β}, List.Forall₂ R l l1 → ∀ b ∈ l1, ∃ a ∈ l, R a b := by
  intro l l1 h
  induction h with
  | nil => intro b hb; simp at hb
  | cons hR _ ih =>
    intro b hb
    rcases List.mem_cons.mp hb with rfl | hbt
    · exact ⟨_, List.mem_cons_self _ _, hR⟩
    · obtain ⟨a, ha, hab⟩ := ih b hbt
      exact ⟨a, List.mem_cons_of_mem _ ha, hab⟩

theorem forall2_map_right {R : α → β → Prop} {Q : α → γ → Prop} (g : β → γ)
    (h : ∀ a b, R a b → Q a (g b)) :
    ∀ {l : List α} {l1 : List β}, List.Forall₂ R l l1 → List.Forall₂ Q l (l1.map g) := by
  intro l l1 hf
  induction hf with
  | nil => exact List.Forall₂.nil
  | cons hR _ ih => exact List.Forall₂.cons (h _ _ hR) ih

/-! The comparator-derived non-descending tests and their order facts. -/

theorem char_toNat_inj {a b : Char} (h : a.toNat = b.toNat) : a = b :=
  Char.ext (UInt32.ext h)

theorem charsLtB_asymm : ∀ (as bs : List Char),
    charsLtB as bs = true → charsLtB bs as = false := by
  intro as
  induction as with
  | nil =>
    intro bs h
    cases bs with
    | nil => simp [charsLtB] at h
    | cons b bs => simp [charsLtB]
  | cons a as ih =>
    intro bs h
    cases bs with
    | nil => simp [charsLtB] at h
    | cons b bs =>
      simp only [charsLtB] at h ⊢
      by_cases h1 : a.toNat < b.toNat
      · have h2 : ¬ b.toNat < a.toNat := Nat.lt_asymm h1
        simp [h1, h2]
      · by_cases h2 : b.toNat < a.toNat
        · simp [h1, h2] at h
        · simp only [if_neg h1, if_neg h2] at h ⊢
          exact ih bs h

theorem charsLtB_conn : ∀ (as bs : List Char),
    charsLtB as bs = false → charsLtB bs as = false → as = bs := by
  intro as
  induction as with
  | nil =>
    intro bs h1 _
    cases bs with
    | nil => rfl
    | cons b bs => simp [charsLtB] at h1
  | cons a as ih =>
    intro bs h1 h2
    cases bs with
    | nil => simp [charsLtB] at h2
    | cons b bs =>
      simp only [charsLtB] at h1 h2
      by_cases hab : a.toNat < b.toNat
      · simp [hab] at h1
      · by_cases hba : b.toNat < a.toNat
        · simp [hba] at h2
        · have he : a = b :=
            char_toNat_inj (Nat.le_antisymm (Nat.not_lt.mp hba) (Nat.not_lt.mp hab))
          have htail := ih bs (by simpa [hab, hba] using h1) (by simpa [hab, hba] using h2)
          rw [he, htail]

theorem charsLtB_trans : ∀ (as bs cs : List Char),
    charsLtB as bs = true → charsLtB bs cs = true → charsLtB as cs = true := by
  intro as
  induction as with
  | nil =>
    intro bs cs _ h2
    cases cs with
    | nil =>
      cases bs <;> simp [charsLtB] at h2
    | cons c cs => simp [charsLtB]
  | cons a as ih =>
    intro bs cs h1 h2
    cases bs with
    | nil => simp [charsLtB] at h1
    | cons b bs =>
      cases cs with
      | nil => simp [charsLtB] at h2
      | cons c cs =>
        simp only [charsLtB] at h1 h2 ⊢
        by_cases hab : a.toNat < b.toNat
        · by_cases hbc : b.toNat < c.toNat
          · simp [Nat.lt_trans hab hbc]
          · by_cases hcb : c.toNat < b.toNat
            · simp [hbc, hcb] at h2
            · have he : b.toNat = c.toNat :=
                Nat.le_antisymm (Nat.not_lt.mp hcb) (Nat.not_lt.mp hbc)
              simp [he ▸ hab]
        · by_cases hba : b.toNat < a.toNat
          · simp [hab, hba] at h1
          · have he : a.toNat = b.toNat :=
              Nat.le_antisymm (Nat.not_lt.mp hba) (Nat.not_lt.mp hab)
            simp only [if_neg hab, if_neg hba] at h1
            by_cases hbc : b.toNat < c.toNat
            · simp [he ▸ hbc]
            · by_cases hcb : c.toNat < b.toNat
              · simp [hbc, hcb] at h2
              · simp only [if_neg hbc, if_neg hcb] at h2
                have hac : ¬ a.toNat < c.toNat := by rw [he]; exact hbc
                have hca : ¬ c.toNat < a.toNat := by rw [he]; exact hcb
                simp only [if_neg hac, if_neg hca]
                exact ih bs cs h1 h2

theorem charsLtB_le_trans {as bs cs : List Char} (h1 : charsLtB bs as = false)
    (h2 : charsLtB cs bs = false) : charsLtB cs as = false := by
  by_cases hca : charsLtB cs as = true
  · by_cases hbc : charsLtB bs cs = true
    · have := charsLtB_trans bs cs as hbc hca
      rw [h1] at this
      exact absurd this (by simp)
    · have hbc2 : charsLtB bs cs = false := Bool.eq_false_iff.mpr hbc
      have he : cs = bs := charsLtB_conn cs bs h2 hbc2
      rw [he] at hca
      rw [h1] at hca
      exact absurd hca (by simp)
  · exact Bool.eq_false_iff.mpr hca

theorem strLtB_asymm {a b : String} (h : strLtB a b = true) : strLtB b a = false :=
  charsLtB_asymm a.data b.data h

theorem strLtB_conn {a b : String} (h1 : strLtB a b = false) (h2 : strLtB b a = false) :
    a = b :=
  String.ext (charsLtB_conn a.data b.data h1 h2)

theorem strLtB_trans {a b c : String} (h1 : strLtB a b = true) (h2 : strLtB b c = true) :
    strLtB a c = true :=
  charsLtB_trans a.data b.data c.data h1 h2

theorem strLtB_le_trans {a b c : String} (h1 : strLtB b a = false)
    (h2 : strLtB c b = false) : strLtB c a = false :=
  charsLtB_le_trans h1 h2

theorem strLeB_eq_not (a b : String) : strLeB a b = !(strLtB b a) := by
  unfold strLeB strCmp
  by_cases h1 : strLtB a b = true
  · rw [if_pos h1, strLtB_asymm h1]
    rfl
  · have h1f : strLtB a b = false := Bool.eq_false_iff.mpr h1
    rw [if_neg h1]
    by_cases h2 : strLtB b a = true
    · rw [if_pos h2, h2]
      rfl
    · have h2f : strLtB b a = false := Bool.eq_false_iff.mpr h2
      rw [if_neg h2, h2f]
      rfl

theorem strLeB_total (a b : String) : strLeB a b = true ∨ strLeB b a = true := by
  rw [strLeB_eq_not, strLeB_eq_not]
  by_cases h : strLtB b a = true
  · right
    rw [strLtB_asymm h]
    rfl
  · left
    rw [Bool.eq_false_iff.mpr h]
    rfl

theorem strLeB_trans {a b c : String} (h1 : strLeB a b = true) (h2 : strLeB b c = true) :
    strLeB a c = true := by
  rw [strLeB_eq_not] at h1 h2 ⊢
  rw [strLtB_le_trans (by simpa using h1) (by simpa using h2)]
  rfl

theorem jsLtO_some_some (a b : String) : jsLtO (some a) (some b) = strLtB a b := rfl

theorem instDlLeB_some_iff {a b : Installation} {x y : String}
    (ha : a.download = some x) (hb : b.download = some y) :
    instDlLeB a b = true ↔
      (strLtB a.type b.type = true ∨
       (strLtB a.type b.type = false ∧ strLtB b.type a.type = false ∧
        strLtB y x = false)) := by
  simp only [instDlLeB, cmpInstDl, ha, hb, jsLtO_some_some, decide_eq_true_eq]
  by_cases h1 : strLtB a.type b.type = true
  · rw [if_pos h1]
    constructor
    · intro _
      exact Or.inl h1
    · intro _
      norm_num
  · have h1f : strLtB a.type b.type = false := Bool.eq_false_iff.mpr h1
    rw [if_neg h1]
    by_cases h2 : strLtB b.type a.type = true
    · rw [if_pos h2]
      constructor
      · intro hle
        norm_num at hle
      · intro hor
        rcases hor with hor | ⟨_, hor, _⟩
        · exact absurd hor h1
        · rw [h2] at hor
          exact absurd hor (by simp)
    · have h2f : strLtB b.type a.type = false := Bool.eq_false_iff.mpr h2
      rw [if_neg h2]
      by_cases h3 : strLtB x y = true
      · rw [if_pos h3]
        constructor
        · intro _
          exact Or.inr ⟨h1f, h2f, strLtB_asymm h3⟩
        · intro _
          norm_num
      · rw [if_neg h3]
        by_cases h4 : strLtB y x = true
        · rw [if_pos h4]
          constructor
          · intro hle
            norm_num at hle
          · intro hor
            rcases hor with hor | ⟨_, _, hor⟩
            · exact absurd hor h1
            · rw [h4] at hor
              exact absurd hor (by simp)
        · rw [if_neg h4]
          constructor
          · intro _
            exact Or.inr ⟨h1f, h2f, Bool.eq_false_iff.mpr h4⟩
          · intro _
            norm_num

theorem instDlLeB_total (a b : Installation) : instDlLeB a b = true ∨ instDlLeB b a = true := by
  simp only [instDlLeB, decide_eq_true_eq, cmpInstDl]
  by_cases h1 : strLtB a.type b.type = true
  · left
    rw [if_pos h1]
    norm_num
  · by_cases h2 : strLtB b.type a.type = true
    · right
      rw [if_pos h2]
      norm_num
    · rw [if_neg h1, if_neg h2]
      by_cases j1 : jsLtO a.download b.download = true
      · left
        rw [if_pos j1]
        norm_num
      · by_cases j2 : jsLtO b.download a.download = true
        · right
          rw [if_neg h2, if_neg h1, if_pos j2]
          norm_num
        · left
          rw [if_neg j1, if_neg j2]

theorem instDlLeB_trans_some {a b c : Installation} {x y z : String}
    (ha : a.download = some x) (hb : b.download = some y) (hc : c.download = some z)
    (h1 : instDlLeB a b = true) (h2 : instDlLeB b c = true) : instDlLeB a c = true := by
  rw [instDlLeB_some_iff ha hb] at h1
  rw [instDlLeB_some_iff hb hc] at h2
  rw [instDlLeB_some_iff ha hc]
  rcases h1 with h1 | ⟨e1a, e1b, l1⟩
  · rcases h2 with h2 | ⟨e2a, e2b, _⟩
    · exact Or.inl (strLtB_trans h1 h2)
    · have he : b.type = c.type := strLtB_conn e2a e2b
      exact Or.inl (he ▸ h1)
  · rcases h2 with h2 | ⟨e2a, e2b, l2⟩
    · have he : a.type = b.type := strLtB_conn e1a e1b
      exact Or.inl (he ▸ h2)
    · have he1 : a.type = b.type := strLtB_conn e1a e1b
      have he2 : b.type = c.type := strLtB_conn e2a e2b
      refine Or.inr ⟨?_, ?_, strLtB_le_trans l1 l2⟩
      · rw [he1]
        exact e2a
      · rw [he1]
        exact e2b

theorem fontNameLeB_total (a b : FontSrc) : fontNameLeB a b = true ∨ fontNameLeB b a = true :=
  strLeB_total a.name b.name

theorem fontNameLeB_trans {a b c : FontSrc} (h1 : fontNameLeB a b = true)
    (h2 : fontNameLeB b c = true) : fontNameLeB a c = true :=
  strLeB_trans h1 h2

theorem dlIdLeB_total (a b : DownloadOut) : dlIdLeB a b = true ∨ dlIdLeB b a = true :=
  strLeB_total a.id b.id

theorem dlIdLeB_trans {a b c : DownloadOut} (h1 : dlIdLeB a b = true)
    (h2 : dlIdLeB b c = true) : dlIdLeB a c = true :=
  strLeB_trans h1 h2

/-! Field bookkeeping for the two small rewrites applied to installations. -/

theorem cleanupRefs_spec (lp u : Option String) (i : Installation) :
    (cleanupRefs lp u i).type = i.type ∧ (cleanupRefs lp u i).files = i.files ∧
    (cleanupRefs lp u i).download = i.download ∧
    (cleanupRefs lp u i).localPath = (if strTruthy lp then none else i.localPath) ∧
    (cleanupRefs lp u i).url = (if strTruthy u then none else i.url) := by
  unfold cleanupRefs
  by_cases h1 : strTruthy lp = true
  · by_cases h2 : strTruthy u = true
    · simp [h1, h2]
    · simp [h1, h2]
  · by_cases h2 : strTruthy u = true
    · simp [h1, h2]
    · simp [h1, h2]

theorem sortFilesIfCab_spec (i : Installation) :
    (sortFilesIfCab i).type = i.type ∧ (sortFilesIfCab i).download = i.download ∧
    (sortFilesIfCab i).localPath = i.localPath ∧ (sortFilesIfCab i).url = i.url ∧
    (sortFilesIfCab i).files =
      (if i.type = "cabextract" then insertionSortB strLeB i.files else i.files) := by
  unfold sortFilesIfCab
  split <;> simp_all

/-! Stability of the registry under the run's only mutation (appending), and
monotonicity of the specification relations in the final state. -/

theorem recordWF_mono {cfg : Config} {s s1 : BuildState}
    (h : Extends s.outDirFiles s1.outDirFiles) {d : DownloadRec}
    (hwf : RecordWF cfg s d) : RecordWF cfg s1 d := by
  obtain ⟨b, h1, h2, h3⟩ := hwf
  refine ⟨b, h1, h2, ?_⟩
  rcases h3 with ⟨p, hk, hr, hm, hu⟩ | hrest
  · exact Or.inl ⟨p, hk, hr, extends_mem h hm, hu⟩
  · exact Or.inr hrest

theorem findIdForKey_extends {s s1 : BuildState} (h : Extends s.downloads s1.downloads)
    {k : DKey} {id : String} (hf : findIdForKey s k = some id) :
    findIdForKey s1 k = some id := by
  unfold findIdForKey at hf ⊢
  cases hfind : s.downloads.find? (fun d => decide (d.key = k)) with
  | none => rw [hfind] at hf; simp at hf
  | some d =>
    rw [hfind] at hf
    rw [find?_extends h hfind]
    exact hf

theorem findIdForKey_isSome {s : BuildState} {k : DKey}
    (h : ∃ d ∈ s.downloads, d.key = k) : ∃ id, findIdForKey s k = some id := by
  obtain ⟨d, hd, hk⟩ := h
  unfold findIdForKey
  cases hfind : s.downloads.find? (fun x => decide (x.key = k)) with
  | none =>
    rw [List.find?_eq_none] at hfind
    exact absurd (decide_eq_true hk) (hfind d hd)
  | some d1 => exact ⟨d1.id, rfl⟩

theorem instRel_mono {cfg : Config} {s s1 : BuildState} (h : Extends s.downloads s1.downloads)
    {i i1 : Installation} (hr : InstRel cfg s i i1) : InstRel cfg s1 i i1 := by
  obtain ⟨h1, h2, h3, h4, h5, h6⟩ := hr
  refine ⟨h1, h2, h3, h4, ?_, h6⟩
  intro k hk
  obtain ⟨hd, d, hdm, hdk⟩ := h5 k hk
  obtain ⟨id, hid⟩ := findIdForKey_isSome ⟨d, hdm, hdk⟩
  refine ⟨?_, d, extends_mem h hdm, hdk⟩
  rw [hd, hid, findIdForKey_extends h hid]

theorem fontRel_mono {cfg : Config} {s s1 : BuildState} (h : Extends s.downloads s1.downloads)
    {f f1 : FontSrc} (hr : FontRel cfg s f f1) : FontRel cfg s1 f f1 := by
  obtain ⟨h1, h2, h3, h4, h5, h6, l1, hl, he⟩ := hr
  exact ⟨h1, h2, h3, h4, h5, h6, l1, hl.imp (fun _ _ hi => instRel_mono h hi), he⟩

theorem stepOK_refl (s : BuildState) : StepOK s s :=
  ⟨extends_refl _, extends_refl _, le_refl _, rfl, rfl, rfl⟩

theorem stepOK_trans {s1 s2 s3 : BuildState} (h1 : StepOK s1 s2) (h2 : StepOK s2 s3) :
    StepOK s1 s3 :=
  ⟨extends_trans h1.1 h2.1, extends_trans h1.2.1 h2.2.1, le_trans h1.2.2.1 h2.2.2.1,
   h2.2.2.2.1.trans h1.2.2.2.1, h2.2.2.2.2.1.trans h1.2.2.2.2.1,
   h2.2.2.2.2.2.trans h1.2.2.2.2.2⟩

theorem optTruthy_exists_local {cfg : Config} {s : BuildState}
    (hne : ∀ n, cfg.uuid n ≠ "") (hInv : Inv cfg s) (p : String) :
    optTruthy (downloadExistsLocalFile cfg s.downloads p) =
      findIdForKey s (DKey.localFile (cfg.normalizePath p)) := by
  unfold downloadExistsLocalFile
  cases hfind : s.downloads.find?
      (fun d => decide (d.key = DKey.localFile (cfg.normalizePath p))) with
  | none => simp [optTruthy, findIdForKey, hfind]
  | some d =>
    have hd := List.mem_of_find?_eq_some hfind
    obtain ⟨j, _, hid⟩ := hInv.1 d hd
    have hne1 : d.id ≠ "" := by rw [hid]; exact hne j
    simp [optTruthy, findIdForKey, hfind, hne1]

theorem inv_push {cfg : Config} {s : BuildState} (hinj : Function.Injective cfg.uuid)
    (hInv : Inv cfg s) {d : DownloadRec} {s1 : BuildState}
    (hdl : s1.downloads = s.downloads ++ [d])
    (hcnt : s1.uuidCount = s.uuidCount + 1)
    (hcalls : s1.resolverCalls = s.resolverCalls ++ [d.key])
    (hid : d.id = cfg.uuid s.uuidCount)
    (hkey : ∀ d0 ∈ s.downloads, d0.key ≠ d.key)
    (hout : Extends s.outDirFiles s1.outDirFiles)
    (hwf : RecordWF cfg s1 d) :
    Inv cfg s1 := by
  have hidfresh : ∀ d0 ∈ s.downloads, d0.id ≠ d.id := by
    intro d0 hd0 he
    obtain ⟨j, hj, hjid⟩ := hInv.1 d0 hd0
    rw [hjid, hid] at he
    exact absurd (hinj he) (Nat.ne_of_lt hj)
  refine ⟨?_, ?_, ?_, ?_, ?_⟩
  · intro d0 hd0
    rw [hdl] at hd0
    rcases List.mem_append.mp hd0 with hold | hnew
    · obtain ⟨j, hj, hjid⟩ := hInv.1 d0 hold
      exact ⟨j, by rw [hcnt]; exact hj.trans (Nat.lt_succ_self _), hjid⟩
    · rw [List.mem_singleton.mp hnew]
      exact ⟨s.uuidCount, by rw [hcnt]; exact Nat.lt_succ_self _, hid⟩
  · rw [hdl, List.map_append]
    refine List.nodup_append.mpr ⟨hInv.2.1, List.nodup_singleton _, ?_⟩
    intro x hx hx1
    simp only [List.map_cons, List.map_nil, List.mem_singleton] at hx1
    obtain ⟨d0, hd0, hd0x⟩ := List.mem_map.mp hx
    exact hidfresh d0 hd0 (hd0x.trans hx1)
  · rw [hdl, List.map_append]
    refine List.nodup_append.mpr ⟨hInv.2.2.1, List.nodup_singleton _, ?_⟩
    intro x hx hx1
    simp only [List.map_cons, List.map_nil, List.mem_singleton] at hx1
    obtain ⟨d0, hd0, hd0x⟩ := List.mem_map.mp hx
    exact hkey d0 hd0 (hd0x.trans hx1)
  · rw [hcalls, hInv.2.2.2.1, hdl, List.map_append]
    rfl
  · intro d0 hd0
    rw [hdl] at hd0
    rcases List.mem_append.mp hd0 with hold | hnew
    · exact recordWF_mono hout (hInv.2.2.2.2 d0 hold)
    · rw [List.mem_singleton.mp hnew]
      exact hwf

theorem findIdForKey_push_fresh {s s1 : BuildState} {d : DownloadRec}
    (hdl : s1.downloads = s.downloads ++ [d]) {k : DKey}
    (hmiss : s.downloads.find? (fun x => decide (x.key = k)) = none)
    (hk : d.key = k) : findIdForKey s1 k = some d.id := by
  unfold findIdForKey
  rw [hdl, find?_append_of_none hmiss]
  simp [List.find?, hk]

theorem exists_key_push {s1 : BuildState} {pre : List DownloadRec} {d : DownloadRec}
    (hdl : s1.downloads = pre ++ [d]) {k : DKey} (hk : d.key = k) :
    ∃ x ∈ s1.downloads, x.key = k :=
  ⟨d, by rw [hdl]; exact List.mem_append_right _ (List.mem_singleton_self _), hk⟩

theorem addLocalFileDownload_ok {cfg : Config} (hinj : Function.Injective cfg.uuid)
    {p : String} {s : BuildState} (hInv : Inv cfg s)
    (hmiss : s.downloads.find?
      (fun d => decide (d.key = DKey.localFile (cfg.normalizePath p))) = none)
    {id : String} {s1 : BuildState}
    (h : addLocalFileDownload cfg p s = (Except.ok id, s1)) :
    Inv cfg s1 ∧ StepOK s s1 ∧
    findIdForKey s1 (DKey.localFile (cfg.normalizePath p)) = some id ∧
    (∃ d ∈ s1.downloads, d.key = DKey.localFile (cfg.normalizePath p)) := by
  cases hrf : cfg.readFile p with
  | none => simp [addLocalFileDownload, hrf] at h
  | some bytes =>
    simp only [addLocalFileDownload, hrf, Prod.mk.injEq, Except.ok.injEq] at h
    obtain ⟨hid, hs1⟩ := h
    subst hs1
    have hkeys : ∀ d0 ∈ s.downloads, d0.key ≠ DKey.localFile (cfg.normalizePath p) := by
      intro d0 hd0 he
      exact (List.find?_eq_none.mp hmiss d0 hd0) (decide_eq_true he)
    refine ⟨?_, ?_, ?_, ?_⟩
    · refine inv_push hinj hInv rfl rfl rfl rfl hkeys ⟨_, rfl⟩ ?_
      refine ⟨bytes, rfl, rfl, Or.inl ⟨p, rfl, hrf, ?_, rfl⟩⟩
      exact List.mem_append_right _ (List.mem_singleton_self _)
    · exact ⟨⟨_, rfl⟩, ⟨_, rfl⟩, Nat.le_succ _, rfl, rfl, rfl⟩
    · exact (findIdForKey_push_fresh rfl hmiss rfl).trans (by rw [hid])
    · exact exists_key_push rfl rfl

theorem addURLDownload_ok {cfg : Config} (hinj : Function.Injective cfg.uuid)
    {u : String} {s : BuildState} (hInv : Inv cfg s)
    (hmiss : s.downloads.find?
      (fun d => decide (d.key = DKey.url (cfg.normalizeUrl u))) = none)
    {id : String} {s1 : BuildState}
    (h : addURLDownload cfg u s = (Except.ok id, s1)) :
    Inv cfg s1 ∧ StepOK s s1 ∧
    findIdForKey s1 (DKey.url (cfg.normalizeUrl u)) = some id ∧
    (∃ d ∈ s1.downloads, d.key = DKey.url (cfg.normalizeUrl u)) := by
  cases hfu : cfg.fetchUrl u with
  | transportError => simp [addURLDownload, hfu] at h
  | response st body =>
    cases body with
    | none => simp [addURLDownload, hfu] at h
    | some bytes =>
      simp only [addURLDownload, hfu, Prod.mk.injEq, Except.ok.injEq] at h
      obtain ⟨hid, hs1⟩ := h
      subst hs1
      have hkeys : ∀ d0 ∈ s.downloads, d0.key ≠ DKey.url (cfg.normalizeUrl u) := by
        intro d0 hd0 he
        exact (List.find?_eq_none.mp hmiss d0 hd0) (decide_eq_true he)
      refine ⟨?_, ?_, ?_, ?_⟩
      · refine inv_push hinj hInv rfl rfl rfl rfl hkeys (extends_refl _) ?_
        exact ⟨bytes, rfl, rfl, Or.inr ⟨u, st, rfl, hfu, rfl⟩⟩
      · exact ⟨⟨_, rfl⟩, extends_refl _, Nat.le_succ _, rfl, Nat.add_sub_cancel _ _, rfl⟩
      · exact (findIdForKey_push_fresh rfl hmiss rfl).trans (by rw [hid])
      · exact exists_key_push rfl rfl

theorem optTruthy_exists_url {cfg : Config} {s : BuildState}
    (hne : ∀ n, cfg.uuid n ≠ "") (hInv : Inv cfg s) (u : String) :
    optTruthy (downloadExistsURL cfg s.downloads u) =
      findIdForKey s (DKey.url (cfg.normalizeUrl u)) := by
  unfold downloadExistsURL
  cases hfind : s.downloads.find?
      (fun d => decide (d.key = DKey.url (cfg.normalizeUrl u))) with
  | none => simp [optTruthy, findIdForKey, hfind]
  | some d =>
    have hd := List.mem_of_find?_eq_some hfind
    obtain ⟨j, _, hid⟩ := hInv.1 d hd
    have hne1 : d.id ≠ "" := by rw [hid]; exact hne j
    simp [optTruthy, findIdForKey, hfind, hne1]

theorem findIdForKey_some_elim {s : BuildState} {k : DKey} {id : String}
    (h : findIdForKey s k = some id) : ∃ d ∈ s.downloads, d.key = k ∧ d.id = id := by
  unfold findIdForKey at h
  cases hfind : s.downloads.find? (fun d => decide (d.key = k)) with
  | none => rw [hfind] at h; simp at h
  | some d =>
    rw [hfind] at h
    simp only [Option.map_some', Option.some.injEq] at h
    have hp : d.key = k := by simpa using List.find?_some hfind
    exact ⟨d, List.mem_of_find?_eq_some hfind, hp, h⟩

theorem findIdForKey_none_elim {s : BuildState} {k : DKey} (h : findIdForKey s k = none) :
    s.downloads.find? (fun d => decide (d.key = k)) = none := by
  unfold findIdForKey at h
  cases hfind : s.downloads.find? (fun d => decide (d.key = k)) with
  | none => rfl
  | some d => rw [hfind] at h; simp at h

theorem keyOfRef_local (cfg : Config) {i : Installation} {p : String}
    (h : i.localPath = some p) :
    keyOfRef cfg i = some (DKey.localFile (cfg.normalizePath p)) := by
  unfold keyOfRef
  rw [h]

theorem keyOfRef_url (cfg : Config) {i : Installation} {u : String}
    (h1 : i.localPath = none) (h2 : i.url = some u) :
    keyOfRef cfg i = some (DKey.url (cfg.normalizeUrl u)) := by
  unfold keyOfRef
  rw [h1, h2]

theorem keyOfRef_noRef (cfg : Config) {i : Installation}
    (h1 : i.localPath = none) (h2 : i.url = none) : keyOfRef cfg i = none := by
  unfold keyOfRef
  rw [h1, h2]

theorem resolveRef_ok {cfg : Config} (hne : ∀ n, cfg.uuid n ≠ "")
    (hinj : Function.Injective cfg.uuid)
    {i : Installation} {s : BuildState} (hInv : Inv cfg s) {i1 : Installation}
    {s1 : BuildState} (h : resolveRef cfg i s = (Except.ok i1, s1)) :
    Inv cfg s1 ∧ StepOK s s1 ∧
    i1.type = i.type ∧ i1.files = i.files ∧ i1.localPath = i.localPath ∧ i1.url = i.url ∧
    (∀ k, keyOfRef cfg i = some k →
      i1.download = findIdForKey s1 k ∧ ∃ d ∈ s1.downloads, d.key = k) ∧
    (keyOfRef cfg i = none → i1.download = i.download) := by
  cases hlp : i.localPath with
  | some p =>
    have hk := keyOfRef_local cfg hlp
    cases hopt : optTruthy (downloadExistsLocalFile cfg s.downloads p) with
    | some id0 =>
      simp only [resolveRef, hlp, hopt, Prod.mk.injEq, Except.ok.injEq] at h
      obtain ⟨hi1, hs1⟩ := h
      subst hi1 hs1
      have hfind : findIdForKey s (DKey.localFile (cfg.normalizePath p)) = some id0 :=
        (optTruthy_exists_local hne hInv p).symm.trans hopt
      refine ⟨hInv, stepOK_refl s, rfl, rfl, rfl, rfl, ?_, ?_⟩
      · intro k hk0
        rw [hk] at hk0
        injection hk0 with hk1
        subst hk1
        obtain ⟨d, hd, hdk, _⟩ := findIdForKey_some_elim hfind
        exact ⟨hfind.symm, d, hd, hdk⟩
      · intro hk0
        rw [hk] at hk0
        simp at hk0
    | none =>
      have hfmiss : findIdForKey s (DKey.localFile (cfg.normalizePath p)) = none :=
        (optTruthy_exists_local hne hInv p).symm.trans hopt
      have hfind := findIdForKey_none_elim hfmiss
      cases hadd : addLocalFileDownload cfg p s with
      | mk r s2 =>
        cases r with
        | error e => simp [resolveRef, hlp, hopt, hadd] at h
        | ok id2 =>
          simp only [resolveRef, hlp, hopt, hadd, Prod.mk.injEq, Except.ok.injEq] at h
          obtain ⟨hi1, hs1⟩ := h
          subst hi1 hs1
          obtain ⟨hI, hS, hF, hE⟩ := addLocalFileDownload_ok hinj hInv hfind hadd
          refine ⟨hI, hS, rfl, rfl, rfl, rfl, ?_, ?_⟩
          · intro k hk0
            rw [hk] at hk0
            injection hk0 with hk1
            subst hk1
            exact ⟨hF.symm, hE⟩
          · intro hk0
            rw [hk] at hk0
            simp at hk0
  | none =>
    cases hurl : i.url with
    | some u =>
      have hk := keyOfRef_url cfg hlp hurl
      cases hopt : optTruthy (downloadExistsURL cfg s.downloads u) with
      | some id0 =>
        simp only [resolveRef, hlp, hurl, hopt, Prod.mk.injEq, Except.ok.injEq] at h
        obtain ⟨hi1, hs1⟩ := h
        subst hi1 hs1
        have hfind : findIdForKey s (DKey.url (cfg.normalizeUrl u)) = some id0 :=
          (optTruthy_exists_url hne hInv u).symm.trans hopt
        refine ⟨hInv, stepOK_refl s, rfl, rfl, rfl, rfl, ?_, ?_⟩
        · intro k hk0
          rw [hk] at hk0
          injection hk0 with hk1
          subst hk1
          obtain ⟨d, hd, hdk, _⟩ := findIdForKey_some_elim hfind
          exact ⟨hfind.symm, d, hd, hdk⟩
        · intro hk0
          rw [hk] at hk0
          simp at hk0
      | none =>
        have hfmiss : findIdForKey s (DKey.url (cfg.normalizeUrl u)) = none :=
          (optTruthy_exists_url hne hInv u).symm.trans hopt
        have hfind := findIdForKey_none_elim hfmiss
        cases hadd : addURLDownload cfg u s with
        | mk r s2 =>
          cases r with
          | error e => simp [resolveRef, hlp, hurl, hopt, hadd] at h
          | ok id2 =>
            simp only [resolveRef, hlp, hurl, hopt, hadd, Prod.mk.injEq,
              Except.ok.injEq] at h
            obtain ⟨hi1, hs1⟩ := h
            subst hi1 hs1
            obtain ⟨hI, hS, hF, hE⟩ := addURLDownload_ok hinj hInv hfind hadd
            refine ⟨hI, hS, rfl, rfl, rfl, rfl, ?_, ?_⟩
            · intro k hk0
              rw [hk] at hk0
              injection hk0 with hk1
              subst hk1
              exact ⟨hF.symm, hE⟩
            · intro hk0
              rw [hk] at hk0
              simp at hk0
    | none =>
      have hk := keyOfRef_noRef cfg hlp hurl
      simp only [resolveRef, hlp, hurl, Prod.mk.injEq, Except.ok.injEq] at h
      obtain ⟨hi1, hs1⟩ := h
      subst hi1 hs1
      refine ⟨hInv, stepOK_refl s, rfl, rfl, hlp, hurl, ?_, ?_⟩
      · intro k hk0
        rw [hk] at hk0
        simp at hk0
      · intro _
        rfl

theorem addFromObject_ok {cfg : Config} (hne : ∀ n, cfg.uuid n ≠ "")
    (hinj : Function.Injective cfg.uuid) {i : Installation} {s : BuildState}
    (hInv : Inv cfg s) {i1 : Installation} {s1 : BuildState}
    (h : addFromObject cfg i s = (Except.ok i1, s1)) :
    Inv cfg s1 ∧ StepOK s s1 ∧
    i1.type = i.type ∧ i1.files = i.files ∧
    i1.localPath = (if strTruthy i.localPath then none else i.localPath) ∧
    i1.url = (if strTruthy i.url then none else i.url) ∧
    (∀ k, keyOfRef cfg i = some k →
      i1.download = findIdForKey s1 k ∧ ∃ d ∈ s1.downloads, d.key = k) ∧
    (keyOfRef cfg i = none → i1.download = i.download) := by
  cases hres : resolveRef cfg i s with
  | mk r s2 =>
    cases r with
    | error e => simp [addFromObject, hres] at h
    | ok i2 =>
      simp only [addFromObject, hres, Prod.mk.injEq, Except.ok.injEq] at h
      obtain ⟨hi1, hs1⟩ := h
      subst hi1 hs1
      obtain ⟨hI, hS, ht, hf, hlp, hu, hkey, hnone⟩ := resolveRef_ok hne hinj hInv hres
      obtain ⟨ct, cf, cd, clp, cu⟩ := cleanupRefs_spec i.localPath i.url i2
      refine ⟨hI, hS, ct.trans ht, cf.trans hf, ?_, ?_, ?_, ?_⟩
      · rw [clp, hlp]
      · rw [cu, hu]
      · intro k hk
        obtain ⟨hd, he⟩ := hkey k hk
        exact ⟨cd.trans hd, he⟩
      · intro hk
        exact cd.trans (hnone hk)

theorem processInstallation_ok {cfg : Config} (hne : ∀ n, cfg.uuid n ≠ "")
    (hinj : Function.Injective cfg.uuid) {i : Installation} {s : BuildState}
    (hInv : Inv cfg s) {i1 : Installation} {s1 : BuildState}
    (h : processInstallation cfg i s = (Except.ok i1, s1)) :
    Inv cfg s1 ∧ StepOK s s1 ∧ InstRel cfg s1 i i1 := by
  cases hafo : addFromObject cfg i s with
  | mk r s2 =>
    cases r with
    | error e => simp [processInstallation, hafo] at h
    | ok i2 =>
      simp only [processInstallation, hafo, Prod.mk.injEq, Except.ok.injEq] at h
      obtain ⟨hi1, hs1⟩ := h
      subst hi1 hs1
      obtain ⟨hI, hS, ht, hf, hlp, hu, hkey, hnone⟩ := addFromObject_ok hne hinj hInv hafo
      obtain ⟨st, sd, slp, su, sf⟩ := sortFilesIfCab_spec i2
      refine ⟨hI, hS, st.trans ht, ?_, slp.trans hlp, su.trans hu, ?_, ?_⟩
      · rw [sf, ht, hf]
      · intro k hk
        obtain ⟨hd, he⟩ := hkey k hk
        exact ⟨sd.trans hd, he⟩
      · intro hk
        exact sd.trans (hnone hk)

/-! The walk over the catalog: invariants and pointwise relations. -/

theorem processInstList_ok {cfg : Config} (hne : ∀ n, cfg.uuid n ≠ "")
    (hinj : Function.Injective cfg.uuid) :
    ∀ (l : List Installation) (s : BuildState), Inv cfg s →
    ∀ {l1 : List Installation} {s1 : BuildState},
      processInstList cfg l s = (Except.ok l1, s1) →
      Inv cfg s1 ∧ StepOK s s1 ∧ List.Forall₂ (InstRel cfg s1) l l1 := by
  intro l
  induction l with
  | nil =>
    intro s hInv l1 s1 h
    simp only [processInstList, Prod.mk.injEq, Except.ok.injEq] at h
    obtain ⟨h1, h2⟩ := h
    subst h1 h2
    exact ⟨hInv, stepOK_refl s, List.Forall₂.nil⟩
  | cons i rest ih =>
    intro s hInv l1 s1 h
    cases hpi : processInstallation cfg i s with
    | mk r smid =>
      cases r with
      | error e => simp [processInstList, hpi] at h
      | ok i1 =>
        cases hrest : processInstList cfg rest smid with
        | mk r2 send =>
          cases r2 with
          | error e => simp [processInstList, hpi, hrest] at h
          | ok rest1 =>
            simp only [processInstList, hpi, hrest, Prod.mk.injEq, Except.ok.injEq] at h
            obtain ⟨hl1, hs1⟩ := h
            subst hl1 hs1
            obtain ⟨hI1, hS1, hR1⟩ := processInstallation_ok hne hinj hInv hpi
            obtain ⟨hI2, hS2, hR2⟩ := ih smid hI1 hrest
            exact ⟨hI2, stepOK_trans hS1 hS2,
              List.Forall₂.cons (instRel_mono hS2.1 hR1) hR2⟩

theorem processFont_ok {cfg : Config} (hne : ∀ n, cfg.uuid n ≠ "")
    (hinj : Function.Injective cfg.uuid) {f : FontSrc} {s : BuildState}
    (hInv : Inv cfg s) {f1 : FontSrc} {s1 : BuildState}
    (h : processFont cfg f s = (Except.ok f1, s1)) :
    Inv cfg s1 ∧ StepOK s s1 ∧ FontRel cfg s1 f f1 := by
  cases hpl : processInstList cfg f.installations s with
  | mk r s2 =>
    cases r with
    | error e => simp [processFont, hpl] at h
    | ok insts =>
      simp only [processFont, hpl, Prod.mk.injEq, Except.ok.injEq] at h
      obtain ⟨hf1, hs1⟩ := h
      subst hf1 hs1
      obtain ⟨hI, hS, hR⟩ := processInstList_ok hne hinj f.installations s hInv hpl
      exact ⟨hI, hS, rfl, rfl, rfl, rfl, rfl, rfl, insts, hR, rfl⟩

theorem processFonts_ok {cfg : Config} (hne : ∀ n, cfg.uuid n ≠ "")
    (hinj : Function.Injective cfg.uuid) :
    ∀ (l : List FontSrc) (s : BuildState), Inv cfg s →
    ∀ {l1 : List FontSrc} {s1 : BuildState},
      processFonts cfg l s = (Except.ok l1, s1) →
      Inv cfg s1 ∧ StepOK s s1 ∧ List.Forall₂ (FontRel cfg s1) l l1 := by
  intro l
  induction l with
  | nil =>
    intro s hInv l1 s1 h
    simp only [processFonts, Prod.mk.injEq, Except.ok.injEq] at h
    obtain ⟨h1, h2⟩ := h
    subst h1 h2
    exact ⟨hInv, stepOK_refl s, List.Forall₂.nil⟩
  | cons f rest ih =>
    intro s hInv l1 s1 h
    cases hpf : processFont cfg f s with
    | mk r smid =>
      cases r with
      | error e => simp [processFonts, hpf] at h
      | ok f1 =>
        cases hrest : processFonts cfg rest smid with
        | mk r2 send =>
          cases r2 with
          | error e => simp [processFonts, hpf, hrest] at h
          | ok rest1 =>
            simp only [processFonts, hpf, hrest, Prod.mk.injEq, Except.ok.injEq] at h
            obtain ⟨hl1, hs1⟩ := h
            subst hl1 hs1
            obtain ⟨hI1, hS1, hR1⟩ := processFont_ok hne hinj hInv hpf
            obtain ⟨hI2, hS2, hR2⟩ := ih smid hI1 hrest
            exact ⟨hI2, stepOK_trans hS1 hS2,
              List.Forall₂.cons (fontRel_mono hS2.1 hR1) hR2⟩

/-! Frame facts that hold on every exit path, the failing ones included. -/

theorem frame_refl (s : BuildState) : Frame s s := ⟨rfl, rfl⟩

theorem frame_trans {s1 s2 s3 : BuildState} (h1 : Frame s1 s2) (h2 : Frame s2 s3) :
    Frame s1 s3 := ⟨h2.1.trans h1.1, h2.2.trans h1.2⟩

theorem addLocalFileDownload_frame {cfg : Config} {p : String} {s : BuildState}
    {r : Except BuildErr String} {s1 : BuildState}
    (h : addLocalFileDownload cfg p s = (r, s1)) : Frame s s1 := by
  cases hrf : cfg.readFile p with
  | none =>
    simp only [addLocalFileDownload, hrf, Prod.mk.injEq] at h
    obtain ⟨_, hs1⟩ := h
    subst hs1
    exact ⟨rfl, rfl⟩
  | some bytes =>
    simp only [addLocalFileDownload, hrf, Prod.mk.injEq] at h
    obtain ⟨_, hs1⟩ := h
    subst hs1
    exact ⟨rfl, rfl⟩

theorem addURLDownload_frame {cfg : Config} {u : String} {s : BuildState}
    {r : Except BuildErr String} {s1 : BuildState}
    (h : addURLDownload cfg u s = (r, s1)) : Frame s s1 := by
  cases hfu : cfg.fetchUrl u with
  | transportError =>
    simp only [addURLDownload, hfu, Prod.mk.injEq] at h
    obtain ⟨_, hs1⟩ := h
    subst hs1
    exact ⟨rfl, rfl⟩
  | response st body =>
    cases body with
    | none =>
      simp only [addURLDownload, hfu, Prod.mk.injEq] at h
      obtain ⟨_, hs1⟩ := h
      subst hs1
      exact ⟨rfl, rfl⟩
    | some bytes =>
      simp only [addURLDownload, hfu, Prod.mk.injEq] at h
      obtain ⟨_, hs1⟩ := h
      subst hs1
      exact ⟨rfl, rfl⟩

theorem resolveRef_frame {cfg : Config} {i : Installation} {s : BuildState}
    {r : Except BuildErr Installation} {s1 : BuildState}
    (h : resolveRef cfg i s = (r, s1)) : Frame s s1 := by
  cases hlp : i.localPath with
  | some p =>
    cases hopt : optTruthy (downloadExistsLocalFile cfg s.downloads p) with
    | some id0 =>
      simp only [resolveRef, hlp, hopt, Prod.mk.injEq] at h
      obtain ⟨_, hs1⟩ := h
      subst hs1
      exact frame_refl s
    | none =>
      cases hadd : addLocalFileDownload cfg p s with
      | mk r2 s2 =>
        cases r2 with
        | error e =>
          simp only [resolveRef, hlp, hopt, hadd, Prod.mk.injEq] at h
          obtain ⟨_, hs1⟩ := h
          subst hs1
          exact addLocalFileDownload_frame hadd
        | ok id2 =>
          simp only [resolveRef, hlp, hopt, hadd, Prod.mk.injEq] at h
          obtain ⟨_, hs1⟩ := h
          subst hs1
          exact addLocalFileDownload_frame hadd
  | none =>
    cases hurl : i.url with
    | some u =>
      cases hopt : optTruthy (downloadExistsURL cfg s.downloads u) with
      | some id0 =>
        simp only [resolveRef, hlp, hurl, hopt, Prod.mk.injEq] at h
        obtain ⟨_, hs1⟩ := h
        subst hs1
        exact frame_refl s
      | none =>
        cases hadd : addURLDownload cfg u s with
        | mk r2 s2 =>
          cases r2 with
          | error e =>
            simp only [resolveRef, hlp, hurl, hopt, hadd, Prod.mk.injEq] at h
            obtain ⟨_, hs1⟩ := h
            subst hs1
            exact addURLDownload_frame hadd
          | ok id2 =>
            simp only [resolveRef, hlp, hurl, hopt, hadd, Prod.mk.injEq] at h
            obtain ⟨_, hs1⟩ := h
            subst hs1
            exact addURLDownload_frame hadd
    | none =>
      simp only [resolveRef, hlp, hurl, Prod.mk.injEq] at h
      obtain ⟨_, hs1⟩ := h
      subst hs1
      exact frame_refl s

theorem addFromObject_frame {cfg : Config} {i : Installation} {s : BuildState}
    {r : Except BuildErr Installation} {s1 : BuildState}
    (h : addFromObject cfg i s = (r, s1)) : Frame s s1 := by
  cases hres : resolveRef cfg i s with
  | mk r2 s2 =>
    cases r2 with
    | error e =>
      simp only [addFromObject, hres, Prod.mk.injEq] at h
      obtain ⟨_, hs1⟩ := h
      subst hs1
      exact resolveRef_frame hres
    | ok i2 =>
      simp only [addFromObject, hres, Prod.mk.injEq] at h
      obtain ⟨_, hs1⟩ := h
      subst hs1
      exact resolveRef_frame hres

theorem processInstallation_frame {cfg : Config} {i : Installation} {s : BuildState}
    {r : Except BuildErr Installation} {s1 : BuildState}
    (h : processInstallation cfg i s = (r, s1)) : Frame s s1 := by
  cases hafo : addFromObject cfg i s with
  | mk r2 s2 =>
    cases r2 with
    | error e =>
      simp only [processInstallation, hafo, Prod.mk.injEq] at h
      obtain ⟨_, hs1⟩ := h
      subst hs1
      exact addFromObject_frame hafo
    | ok i2 =>
      simp only [processInstallation, hafo, Prod.mk.injEq] at h
      obtain ⟨_, hs1⟩ := h
      subst hs1
      exact addFromObject_frame hafo

theorem processInstList_frame {cfg : Config} :
    ∀ (l : List Installation) (s : BuildState) {r : Except BuildErr (List Installation)}
      {s1 : BuildState}, processInstList cfg l s = (r, s1) → Frame s s1 := by
  intro l
  induction l with
  | nil =>
    intro s r s1 h
    simp only [processInstList, Prod.mk.injEq] at h
    obtain ⟨_, hs1⟩ := h
    subst hs1
    exact frame_refl s
  | cons i rest ih =>
    intro s r s1 h
    cases hpi : processInstallation cfg i s with
    | mk r2 smid =>
      cases r2 with
      | error e =>
        simp only [processInstList, hpi, Prod.mk.injEq] at h
        obtain ⟨_, hs1⟩ := h
        subst hs1
        exact processInstallation_frame hpi
      | ok i1 =>
        cases hrest : processInstList cfg rest smid with
        | mk r3 send =>
          cases r3 with
          | error e =>
            simp only [processInstList, hpi, hrest, Prod.mk.injEq] at h
            obtain ⟨_, hs1⟩ := h
            subst hs1
            exact frame_trans (processInstallation_frame hpi) (ih smid hrest)
          | ok rest1 =>
            simp only [processInstList, hpi, hrest, Prod.mk.injEq] at h
            obtain ⟨_, hs1⟩ := h
            subst hs1
            exact frame_trans (processInstallation_frame hpi) (ih smid hrest)

theorem processFont_frame {cfg : Config} {f : FontSrc} {s : BuildState}
    {r : Except BuildErr FontSrc} {s1 : BuildState}
    (h : processFont cfg f s = (r, s1)) : Frame s s1 := by
  cases hpl : processInstList cfg f.installations s with
  | mk r2 s2 =>
    cases r2 with
    | error e =>
      simp only [processFont, hpl, Prod.mk.injEq] at h
      obtain ⟨_, hs1⟩ := h
      subst hs1
      exact processInstList_frame f.installations s hpl
    | ok insts =>
      simp only [processFont, hpl, Prod.mk.injEq] at h
      obtain ⟨_, hs1⟩ := h
      subst hs1
      exact processInstList_frame f.installations s hpl

theorem processFonts_frame {cfg : Config} :
    ∀ (l : List FontSrc) (s : BuildState) {r : Except BuildErr (List FontSrc)}
      {s1 : BuildState}, processFonts cfg l s = (r, s1) → Frame s s1 := by
  intro l
  induction l with
  | nil =>
    intro s r s1 h
    simp only [processFonts, Prod.mk.injEq] at h
    obtain ⟨_, hs1⟩ := h
    subst hs1
    exact frame_refl s
  | cons f rest ih =>
    intro s r s1 h
    cases hpf : processFont cfg f s with
    | mk r2 smid =>
      cases r2 with
      | error e =>
        simp only [processFonts, hpf, Prod.mk.injEq] at h
        obtain ⟨_, hs1⟩ := h
        subst hs1
        exact processFont_frame hpf
      | ok f1 =>
        cases hrest : processFonts cfg rest smid with
        | mk r3 send =>
          cases r3 with
          | error e =>
            simp only [processFonts, hpf, hrest, Prod.mk.injEq] at h
            obtain ⟨_, hs1⟩ := h
            subst hs1
            exact frame_trans (processFont_frame hpf) (ih smid hrest)
          | ok rest1 =>
            simp only [processFonts, hpf, hrest, Prod.mk.injEq] at h
            obtain ⟨_, hs1⟩ := h
            subst hs1
            exact frame_trans (processFont_frame hpf) (ih smid hrest)

/-! The whole run. -/

theorem inv_init (cfg : Config) (pre : List (String × Bytes)) :
    Inv cfg { initState pre with outDirFiles := [], outDirCleared := true } :=
  ⟨fun d hd => absurd hd (List.not_mem_nil d), List.nodup_nil, List.nodup_nil, rfl,
   fun d hd => absurd hd (List.not_mem_nil d)⟩

theorem compile_ok {cfg : Config} (hne : ∀ n, cfg.uuid n ≠ "")
    (hinj : Function.Injective cfg.uuid) {catalog : Catalog}
    {pre : List (String × Bytes)} {out : OutManifest} {S : BuildState}
    (h : compile cfg catalog pre = (Except.ok out, S)) :
    Inv cfg S ∧ S.outDirCleared = true ∧ S.tempLive = 0 ∧ S.wroteManifest = true ∧
    out.version = cfg.version ∧
    out.downloads = insertionSortB dlIdLeB (S.downloads.map stripRec) ∧
    ∃ fonts1, List.Forall₂ (FontRel cfg S) catalog.fonts fonts1 ∧
      out.fonts = (insertionSortB fontNameLeB fonts1).map fontProj := by
  cases hpf : processFonts cfg catalog.fonts
      { initState pre with outDirFiles := [], outDirCleared := true } with
  | mk r s1 =>
    cases r with
    | error e => simp [compile, hpf] at h
    | ok fonts1 =>
      simp only [compile, hpf, Prod.mk.injEq, Except.ok.injEq] at h
      obtain ⟨hout, hS⟩ := h
      subst hout hS
      obtain ⟨hI, hS1, hR⟩ :=
        processFonts_ok hne hinj catalog.fonts _ (inv_init cfg pre) hpf
      refine ⟨?_, ?_, ?_, rfl, rfl, rfl, fonts1, ?_, rfl⟩
      · exact ⟨hI.1, hI.2.1, hI.2.2.1, hI.2.2.2.1,
          fun d hd => recordWF_mono ⟨_, rfl⟩ (hI.2.2.2.2 d hd)⟩
      · exact hS1.2.2.2.1
      · exact hS1.2.2.2.2.1
      · exact hR.imp fun _ _ hr => fontRel_mono (extends_refl _) hr

theorem compile_err {cfg : Config} {catalog : Catalog} {pre : List (String × Bytes)}
    {e : BuildErr} {S : BuildState}
    (h : compile cfg catalog pre = (Except.error e, S)) :
    S.wroteManifest = false ∧ S.outDirCleared = true := by
  cases hpf : processFonts cfg catalog.fonts
      { initState pre with outDirFiles := [], outDirCleared := true } with
  | mk r s1 =>
    cases r with
    | ok fonts1 => simp [compile, hpf] at h
    | error e2 =>
      simp only [compile, hpf, Prod.mk.injEq, Except.error.injEq] at h
      obtain ⟨he, hS⟩ := h
      subst hS
      obtain ⟨hc, hw⟩ := processFonts_frame catalog.fonts _ hpf
      exact ⟨hw, hc⟩

theorem forall2_mem_left {R : α → β → Prop} :
    ∀ {l : List α} {l1 : List β}, List.Forall₂ R l l1 → ∀ a ∈ l, ∃ b ∈ l1, R a b := by
  intro l l1 h
  induction h with
  | nil => intro a ha; simp at ha
  | cons hR _ ih =>
    intro a ha
    rcases List.mem_cons.mp ha with rfl | hat
    · exact ⟨_, List.mem_cons_self _ _, hR⟩
    · obtain ⟨b, hb, hab⟩ := ih a hat
      exact ⟨b, List.mem_cons_of_mem _ hb, hab⟩

theorem forall2_map_self {g : α → β} {Q : α → β → Prop} :
    ∀ {l : List α}, (∀ a ∈ l, Q a (g a)) → List.Forall₂ Q l (l.map g)
  | [], _ => List.Forall₂.nil
  | a :: _, h =>
    List.Forall₂.cons (h a (List.mem_cons_self _ _))
      (forall2_map_self fun x hx => h x (List.mem_cons_of_mem _ hx))

theorem uuidT_ne (n : Nat) : uuidT n ≠ "" := by
  intro h
  have h2 : List.replicate (n + 1) 'u' = [] := congrArg String.data h
  simp at h2

theorem uuidT_inj : Function.Injective uuidT := by
  intro a b h
  have h2 : List.replicate (a + 1) 'u' = List.replicate (b + 1) 'u' :=
    congrArg String.data h
  have h3 := congrArg List.length h2
  simp at h3
  exact h3

theorem compT_eq : compile cfgT catT [] = (Except.ok outT, sT) := rfl

theorem comp3_eq : compile cfg3 cat3 [] = (Except.ok out3, s3T) := rfl

theorem no_empty_local_record {cfg : Config} {S : BuildState} (hI : Inv cfg S)
    (hlocal : ∀ p, cfg.normalizePath p = cfg.normalizePath "" → cfg.readFile p = none)
    {d : DownloadRec} (hd : d ∈ S.downloads)
    (hk : d.key = DKey.localFile (cfg.normalizePath "")) : False := by
  obtain ⟨b, _, _, hcase⟩ := hI.2.2.2.2 d hd
  rcases hcase with ⟨p, hk2, hr, _, _⟩ | ⟨u, st, hk2, _, _⟩
  · have he : cfg.normalizePath "" = cfg.normalizePath p :=
      DKey.localFile.inj (hk.symm.trans hk2)
    rw [hlocal p he.symm] at hr
    exact Option.noConfusion hr
  · exact DKey.noConfusion (hk.symm.trans hk2)

theorem no_empty_url_record {cfg : Config} {S : BuildState} (hI : Inv cfg S)
    (hurl : ∀ u st b, cfg.normalizeUrl u = cfg.normalizeUrl "" →
      cfg.fetchUrl u ≠ FetchResult.response st (some b))
    {d : DownloadRec} (hd : d ∈ S.downloads)
    (hk : d.key = DKey.url (cfg.normalizeUrl "")) : False := by
  obtain ⟨b, _, _, hcase⟩ := hI.2.2.2.2 d hd
  rcases hcase with ⟨p, hk2, _, _, _⟩ | ⟨u, st, hk2, hf, _⟩
  · exact DKey.noConfusion (hk.symm.trans hk2)
  · exact hurl u st b (DKey.url.inj (hk.symm.trans hk2)).symm hf

theorem cfg3_empty_read (p : String)
    (h : cfg3.normalizePath p = cfg3.normalizePath "") : cfg3.readFile p = none := by
  have hp : p = "" := h
  rw [hp]
  decide

theorem cfg3_empty_fetch (u : String) (st : Nat) (b : Bytes)
    (_ : cfg3.normalizeUrl u = cfg3.normalizeUrl "") :
    cfg3.fetchUrl u ≠ FetchResult.response st (some b) :=
  fun hc => FetchResult.noConfusion hc

/-- C1: dedup invariant — in a successful compile (with the uuid supply
non-empty and injective, as `randomUUID` guarantees), every set of
installations whose dependency references normalize to the same canonical
key is assigned the one id registered for that key (the pointwise `InstRel`
pins each compiled `download` to `findIdForKey S` of its key), exactly one
Download record with that id exists, the output ids are duplicate-free, and
the fetch/hash resolver ran at most once per distinct canonical key. -/
theorem claim1_dedup_invariant {cfg : Config} {catalog : Catalog}
    {pre : List (String × Bytes)} {out : OutManifest} {S : BuildState}
    (hne : ∀ n, cfg.uuid n ≠ "") (hinj : Function.Injective cfg.uuid)
    (h : compile cfg catalog pre = (Except.ok out, S)) :
    Claim1Concl cfg catalog out S := by
  obtain ⟨hI, _, _, _, _, hdls, fonts1, hR, hfonts⟩ := compile_ok hne hinj h
  refine ⟨?_, ?_, ⟨fonts1, hR, hfonts⟩, ?_, ?_⟩
  · intro d1 h1 d2 h2 hk
    exact List.inj_on_of_nodup_map hI.2.2.1 h1 h2 hk
  · intro f hf i hi k hk
    obtain ⟨f1, _, hFR⟩ := forall2_mem_left hR f hf
    obtain ⟨l1, hl1, _⟩ := hFR.2.2.2.2.2.2
    obtain ⟨i1, _, hIR⟩ := forall2_mem_left hl1 i hi
    obtain ⟨_, d, hd, hdk⟩ := hIR.2.2.2.2.1 k hk
    obtain ⟨id, hid⟩ := findIdForKey_isSome ⟨d, hd, hdk⟩
    obtain ⟨d2, hd2, hd2k, hd2id⟩ := findIdForKey_some_elim hid
    refine ⟨d2, hd2, hd2k, by rw [hid, hd2id], ?_⟩
    rw [hdls]
    exact mem_insertionSortB.mpr (List.mem_map_of_mem _ hd2)
  · rw [hdls]
    have hperm2 :=
      (perm_insertionSortB dlIdLeB (S.downloads.map stripRec)).map
        (fun o : DownloadOut => o.id)
    refine hperm2.nodup_iff.mpr ?_
    rw [List.map_map]
    exact hI.2.1
  · intro k
    rw [hI.2.2.2.1]
    exact List.nodup_iff_count_le_one.mp hI.2.2.1 k

/-- Witness for C1 at the concrete success scenario. -/
theorem claim1_dedup_invariant_witness :
    (∀ n, uuidT n ≠ "") ∧ Function.Injective uuidT ∧
    compile cfgT catT [] = (Except.ok outT, sT) ∧ Claim1Concl cfgT catT outT sT :=
  ⟨uuidT_ne, uuidT_inj, compT_eq, claim1_dedup_invariant uuidT_ne uuidT_inj compT_eq⟩

/-- C5: canonical deterministic ordering — in a successful compile of a
catalog whose installations all carry a dependency reference (the data
model's invariant; it makes every compiled `download` a string, so the
`sortByDownloadID` comparator is transitive on the lists being sorted), the
output fonts are sorted by name, installations by type then download id,
categories and cabextract file lists lexicographically, downloads by id; and
the compiled output is unique for the given catalog and uuid supply. -/
theorem claim5_canonical_ordering {cfg : Config} {catalog : Catalog}
    {pre : List (String × Bytes)} {out : OutManifest} {S : BuildState}
    (hne : ∀ n, cfg.uuid n ≠ "") (hinj : Function.Injective cfg.uuid)
    (hwf : ∀ f ∈ catalog.fonts, ∀ i ∈ f.installations, keyOfRef cfg i ≠ none)
    (h : compile cfg catalog pre = (Except.ok out, S)) :
    Claim5Concl out ∧
    ∀ out2 S2, compile cfg catalog pre = (Except.ok out2, S2) → out2 = out := by
  obtain ⟨hI, _, _, _, _, hdls, fonts1, hR, hfonts⟩ := compile_ok hne hinj h
  refine ⟨⟨?_, ?_, ?_⟩, ?_⟩
  · rw [hfonts]
    refine List.Pairwise.map fontProj (fun a b hab => hab) ?_
    exact sorted_insertionSortB fontNameLeB fonts1
      (fun x _ y _ => fontNameLeB_total x y)
      (fun x _ y _ z _ hxy hyz => fontNameLeB_trans hxy hyz)
  · intro f hf
    rw [hfonts] at hf
    obtain ⟨f1, hf1s, rfl⟩ := List.mem_map.mp hf
    have hf1mem : f1 ∈ fonts1 := mem_insertionSortB.mp hf1s
    obtain ⟨fsrc, hfsrc, hFR⟩ := forall2_mem_right hR f1 hf1mem
    obtain ⟨_, _, _, _, _, _, l1, hl1, hinst⟩ := hFR
    have hsome : ∀ i1 ∈ l1, ∃ x, i1.download = some x := by
      intro i1 hi1
      obtain ⟨i, hi, hIR⟩ := forall2_mem_right hl1 i1 hi1
      cases hko : keyOfRef cfg i with
      | none => exact absurd hko (hwf fsrc hfsrc i hi)
      | some k =>
        obtain ⟨hdl, d, hd, hdk⟩ := hIR.2.2.2.2.1 k hko
        obtain ⟨id, hid2⟩ := findIdForKey_isSome ⟨d, hd, hdk⟩
        exact ⟨id, by rw [hdl, hid2]⟩
    simp only [fontProj]
    refine ⟨?_, ?_, ?_⟩
    · rw [hinst]
      refine sorted_insertionSortB instDlLeB (insertionSortB instDlLeB l1)
        (fun x _ y _ => instDlLeB_total x y) ?_
      intro x hx y hy z hz hxy hyz
      obtain ⟨a, ha⟩ := hsome x (mem_insertionSortB.mp hx)
      obtain ⟨b, hb⟩ := hsome y (mem_insertionSortB.mp hy)
      obtain ⟨c, hc⟩ := hsome z (mem_insertionSortB.mp hz)
      exact instDlLeB_trans_some ha hb hc hxy hyz
    · exact sorted_insertionSortB strLeB f1.categories
        (fun x _ y _ => strLeB_total x y)
        (fun x _ y _ z _ hxy hyz => strLeB_trans hxy hyz)
    · intro i hi2 htype
      have hil1 : i ∈ l1 := by
        have := mem_insertionSortB.mp hi2
        rw [hinst] at this
        exact mem_insertionSortB.mp this
      obtain ⟨isrc, _, hIR⟩ := forall2_mem_right hl1 i hil1
      obtain ⟨hit, hifiles, _⟩ := hIR
      rw [hit] at htype
      rw [hifiles, if_pos htype]
      exact sorted_insertionSortB strLeB isrc.files
        (fun x _ y _ => strLeB_total x y)
        (fun x _ y _ z _ hxy hyz => strLeB_trans hxy hyz)
  · rw [hdls]
    exact sorted_insertionSortB dlIdLeB (S.downloads.map stripRec)
      (fun x _ y _ => dlIdLeB_total x y)
      (fun x _ y _ z _ hxy hyz => dlIdLeB_trans hxy hyz)
  · intro out2 S2 h2
    rw [h] at h2
    simp only [Prod.mk.injEq, Except.ok.injEq] at h2
    exact h2.1.symm

/-- Witness for C5 at the concrete success scenario. -/
theorem claim5_canonical_ordering_witness :
    (∀ n, uuidT n ≠ "") ∧ Function.Injective uuidT ∧
    (∀ f ∈ catT.fonts, ∀ i ∈ f.installations, keyOfRef cfgT i ≠ none) ∧
    compile cfgT catT [] = (Except.ok outT, sT) ∧
    (Claim5Concl outT ∧
      ∀ out2 S2, compile cfgT catT [] = (Except.ok out2, S2) → out2 = outT) :=
  ⟨uuidT_ne, uuidT_inj, by decide, compT_eq,
   claim5_canonical_ordering uuidT_ne uuidT_inj (by decide) compT_eq⟩

/-- C6: hash and size integrity — every Download record of a successful
compile carries the digest and byte length of the exact bytes of its asset:
for a local source the staged copy (present in the output directory under
the record's id) is the very byte sequence that was hashed and measured, for
a remote source it is the fetched body. -/
theorem claim6_hash_integrity {cfg : Config} {catalog : Catalog}
    {pre : List (String × Bytes)} {out : OutManifest} {S : BuildState}
    (hne : ∀ n, cfg.uuid n ≠ "") (hinj : Function.Injective cfg.uuid)
    (h : compile cfg catalog pre = (Except.ok out, S)) :
    Claim6Concl cfg out S := by
  obtain ⟨hI, _, _, _, _, hdls, _⟩ := compile_ok hne hinj h
  intro o ho
  rw [hdls] at ho
  obtain ⟨d, hd, rfl⟩ := List.mem_map.mp (mem_insertionSortB.mp ho)
  obtain ⟨b, hh, hs, hcase⟩ := hI.2.2.2.2 d hd
  refine ⟨b, hh, hs, ?_⟩
  rcases hcase with ⟨p, _, hr, hm, _⟩ | ⟨u, st, _, hfu, hu⟩
  · exact Or.inl ⟨p, hr, hm⟩
  · exact Or.inr ⟨u, st, hfu, hu⟩

/-- Witness for C6 at the concrete success scenario. -/
theorem claim6_hash_integrity_witness :
    (∀ n, uuidT n ≠ "") ∧ Function.Injective uuidT ∧
    compile cfgT catT [] = (Except.ok outT, sT) ∧ Claim6Concl cfgT outT sT :=
  ⟨uuidT_ne, uuidT_inj, compT_eq, claim6_hash_integrity uuidT_ne uuidT_inj compT_eq⟩

/-- C8: downloadURL construction — every Download record of a successful
compile either stems from a local file, in which case its `downloadURL` is
the configured prefix concatenated with the URL-encoding of its id plus the
original file extension and the staged asset in the output directory is
named `<id><extension>`, or stems from a remote url, in which case its
`downloadURL` is the original url verbatim while its dedup key holds the
normalized form. -/
theorem claim8_downloadURL_construction {cfg : Config} {catalog : Catalog}
    {pre : List (String × Bytes)} {out : OutManifest} {S : BuildState}
    (hne : ∀ n, cfg.uuid n ≠ "") (hinj : Function.Injective cfg.uuid)
    (h : compile cfg catalog pre = (Except.ok out, S)) :
    Claim8Concl cfg out S := by
  obtain ⟨hI, _, _, _, _, hdls, _⟩ := compile_ok hne hinj h
  intro o ho
  rw [hdls] at ho
  obtain ⟨d, hd, rfl⟩ := List.mem_map.mp (mem_insertionSortB.mp ho)
  obtain ⟨b, _, _, hcase⟩ := hI.2.2.2.2 d hd
  rcases hcase with ⟨p, _, hr, hm, hu⟩ | ⟨u, st, hk, hfu, hu⟩
  · exact Or.inl ⟨p, b, hr, hu, hm⟩
  · exact Or.inr ⟨d, hd, rfl, u, st, b, hk, hfu, hu⟩

/-- Witness for C8 at the concrete success scenario. -/
theorem claim8_downloadURL_construction_witness :
    (∀ n, uuidT n ≠ "") ∧ Function.Injective uuidT ∧
    compile cfgT catT [] = (Except.ok outT, sT) ∧ Claim8Concl cfgT outT sT :=
  ⟨uuidT_ne, uuidT_inj, compT_eq,
   claim8_downloadURL_construction uuidT_ne uuidT_inj compT_eq⟩

/-- C3 counterexample: compiling a catalog in which one installation carries
an ordinary `_localPath` reference and a second carries no dependency
reference at all succeeds, and in the compiled output the reference-free
installation ends up with no `download` field (`addFromObject` assigns
`obj.download` only inside its two reference branches and otherwise passes
the object through) — refuting the claim that every compiled Installation
carries a `download` naming an existing entry of `downloads`. -/
theorem claim3_counterexample :
    (fontsOfResult (compile cfg3 cat3 [])).map
      (fun f => f.installations.map fun i => (i.localPath, i.url, i.download)) =
    [[(none, none, some "u"), (none, none, none)]] := by decide

/-- C3, amended: in a successful compile of a catalog respecting the data
model's mutual exclusivity (no installation carries both `_localPath` and
`_url` — with both present, the url is ignored by `addFromObject` and an
empty-string `_url` would survive the truthiness-guarded delete), and in any
environment the real program can realize — reading a path whose canonical
form is that of the empty path fails, since `join(cwd, '..', '')` and every
path normalizing like it denote the parent directory, which `copyFileSync`
refuses; fetching a url that normalizes like the empty url fails, since
normalize-url and fetch reject `''` — no compiled installation retains
`_localPath` or `_url`, and every installation that carried a dependency
reference is (through the `InstRel` pairing) assigned a `download` that is
the id of an existing entry of the output `downloads`; an installation with
no reference passes through with its source `download` — absent if the
source had none, as the counterexample exhibits. -/
theorem claim3_amended_no_leakage {cfg : Config} {catalog : Catalog}
    {pre : List (String × Bytes)} {out : OutManifest} {S : BuildState}
    (hne : ∀ n, cfg.uuid n ≠ "") (hinj : Function.Injective cfg.uuid)
    (hmutex : ∀ f ∈ catalog.fonts, ∀ i ∈ f.installations,
      i.localPath = none ∨ i.url = none)
    (hlocal : ∀ p, cfg.normalizePath p = cfg.normalizePath "" → cfg.readFile p = none)
    (hurl : ∀ u st b, cfg.normalizeUrl u = cfg.normalizeUrl "" →
      cfg.fetchUrl u ≠ FetchResult.response st (some b))
    (h : compile cfg catalog pre = (Except.ok out, S)) :
    Claim3Concl cfg catalog out S := by
  obtain ⟨hI, _, _, _, _, hdls, fonts1, hR, hfonts⟩ := compile_ok hne hinj h
  refine ⟨?_, ?_, fonts1, hR, hfonts⟩
  · intro f1 hf i1 hi1
    rw [hfonts] at hf
    obtain ⟨f2, hf2s, rfl⟩ := List.mem_map.mp hf
    obtain ⟨fsrc, hfsrc, hFR⟩ := forall2_mem_right hR f2 (mem_insertionSortB.mp hf2s)
    obtain ⟨_, _, _, _, _, _, l1, hl1, hinst⟩ := hFR
    simp only [fontProj] at hi1
    have hil1 : i1 ∈ l1 := by
      have h2 := mem_insertionSortB.mp hi1
      rw [hinst] at h2
      exact mem_insertionSortB.mp h2
    obtain ⟨isrc, his, hIR⟩ := forall2_mem_right hl1 i1 hil1
    obtain ⟨_, _, hlp, hu, hkey, _⟩ := hIR
    constructor
    · rw [hlp]
      cases hlps : isrc.localPath with
      | none => simp [strTruthy]
      | some str =>
        by_cases hs : str = ""
        · subst hs
          exfalso
          obtain ⟨_, d, hd, hdk⟩ := hkey _ (keyOfRef_local cfg hlps)
          exact no_empty_local_record hI hlocal hd hdk
        · simp [strTruthy, hs]
    · rw [hu]
      cases hurls : isrc.url with
      | none => simp [strTruthy]
      | some str =>
        by_cases hs : str = ""
        · subst hs
          exfalso
          cases hlps : isrc.localPath with
          | none =>
            obtain ⟨_, d, hd, hdk⟩ := hkey _ (keyOfRef_url cfg hlps hurls)
            exact no_empty_url_record hI hurl hd hdk
          | some p =>
            rcases hmutex fsrc hfsrc isrc his with hc | hc
            · rw [hlps] at hc; exact Option.noConfusion hc
            · rw [hurls] at hc; exact Option.noConfusion hc
        · simp [strTruthy, hs]
  · intro f hf i hi k hk
    obtain ⟨f1, _, hFR⟩ := forall2_mem_left hR f hf
    obtain ⟨l1, hl1, _⟩ := hFR.2.2.2.2.2.2
    obtain ⟨i1, _, hIR⟩ := forall2_mem_left hl1 i hi
    obtain ⟨_, d, hd, hdk⟩ := hIR.2.2.2.2.1 k hk
    obtain ⟨id, hid⟩ := findIdForKey_isSome ⟨d, hd, hdk⟩
    obtain ⟨d2, hd2, hd2k, hd2id⟩ := findIdForKey_some_elim hid
    refine ⟨d2, hd2, hd2k, by rw [hid, hd2id], ?_⟩
    rw [hdls]
    exact mem_insertionSortB.mpr (List.mem_map_of_mem _ hd2)

/-- Witness for the amended C3 at the concrete missing-download-field
scenario (which also exercises an ordinary local reference). -/
theorem claim3_amended_no_leakage_witness :
    (∀ n, uuidT n ≠ "") ∧ Function.Injective uuidT ∧
    (∀ f ∈ cat3.fonts, ∀ i ∈ f.installations, i.localPath = none ∨ i.url = none) ∧
    (∀ p, cfg3.normalizePath p = cfg3.normalizePath "" → cfg3.readFile p = none) ∧
    (∀ u st b, cfg3.normalizeUrl u = cfg3.normalizeUrl "" →
      cfg3.fetchUrl u ≠ FetchResult.response st (some b)) ∧
    compile cfg3 cat3 [] = (Except.ok out3, s3T) ∧ Claim3Concl cfg3 cat3 out3 s3T :=
  ⟨uuidT_ne, uuidT_inj, by decide, cfg3_empty_read, cfg3_empty_fetch, comp3_eq,
   claim3_amended_no_leakage uuidT_ne uuidT_inj (by decide) cfg3_empty_read
     cfg3_empty_fetch comp3_eq⟩

/-- C2 counterexample: a compile that stages a local asset and then dies on a
remote fetch leaves the output directory neither untouched nor empty — its
pre-existing content is gone (the directory is wiped at startup) and the
staged copy of the local asset remains — refuting the all-or-nothing claim. -/
theorem claim2_counterexample :
    (compile cfg2 cat2 pre2).1 = Except.error (BuildErr.fetchError "http://dead/f") ∧
    ("precious.bin", [7]) ∉ (compile cfg2 cat2 pre2).2.outDirFiles ∧
    (compile cfg2 cat2 pre2).2.outDirFiles = [("u.exe", [1, 2, 3])] := by
  refine ⟨rfl, ?_, rfl⟩
  decide

/-- C2, amended: when the compile fails, the process signals failure and the
final manifest document is never written — but the output directory has
already been wiped at startup (and any assets staged before the failure
remain in it, as the counterexample shows). -/
theorem claim2_amended_failure_behavior {cfg : Config} {catalog : Catalog}
    {pre : List (String × Bytes)} {e : BuildErr} {S : BuildState}
    (h : compile cfg catalog pre = (Except.error e, S)) :
    S.wroteManifest = false ∧ S.outDirCleared = true :=
  compile_err h

/-- Witness for the amended C2 at the concrete failure scenario. -/
theorem claim2_amended_failure_behavior_witness :
    compile cfg2 cat2 pre2 = (Except.error (BuildErr.fetchError "http://dead/f"), s2T) ∧
    s2T.wroteManifest = false ∧ s2T.outDirCleared = true :=
  have hc : compile cfg2 cat2 pre2 =
      (Except.error (BuildErr.fetchError "http://dead/f"), s2T) := rfl
  ⟨hc, claim2_amended_failure_behavior hc⟩

/-- C7 counterexample: a remote fetch that dies with a transport error throws
before the `rmSync(tempFolder)` line, so the run ends with one temp
directory still alive — refuting the claim that the temp directory is
removed on both exit paths. -/
theorem claim7_counterexample :
    (compile cfg2 cat2 pre2).1 = Except.error (BuildErr.fetchError "http://dead/f") ∧
    (compile cfg2 cat2 pre2).2.tempLive = 1 :=
  ⟨rfl, rfl⟩

/-- C7, amended: on the success path every temp directory created for a
remote download is removed again (a successful compile ends with none
alive); on the failure paths no cleanup runs, as the counterexample shows. -/
theorem claim7_amended_temp_cleanup {cfg : Config} {catalog : Catalog}
    {pre : List (String × Bytes)} {out : OutManifest} {S : BuildState}
    (hne : ∀ n, cfg.uuid n ≠ "") (hinj : Function.Injective cfg.uuid)
    (h : compile cfg catalog pre = (Except.ok out, S)) : S.tempLive = 0 :=
  (compile_ok hne hinj h).2.2.1

/-- Witness for the amended C7 at the concrete success scenario. -/
theorem claim7_amended_temp_cleanup_witness :
    (∀ n, uuidT n ≠ "") ∧ Function.Injective uuidT ∧
    compile cfgT catT [] = (Except.ok outT, sT) ∧ sT.tempLive = 0 :=
  ⟨uuidT_ne, uuidT_inj, compT_eq,
   claim7_amended_temp_cleanup uuidT_ne uuidT_inj compT_eq⟩

/-- C4: the build script never inspects the HTTP status of a completed
response (node-fetch does not reject on non-success statuses and the code
checks neither `response.ok` nor `response.status`), so fetching a url that
answers 404 with an error-page body makes the compile SUCCEED and records a
Download whose size and hash are those of the error page — the code
contradicts the documented policy that a non-success response is fatal and
produces no Download record. -/
theorem claim4_code_bug_nonsuccess_response :
    cfg4.fetchUrl "http://x/404" = FetchResult.response 404 (some [72, 105]) ∧
    (compile cfg4 cat4 []).1 = Except.ok out4 ∧
    out4.downloads.map (fun d => (d.downloadURL, d.fileSize, d.hash)) =
      [("http://x/404", 2, cfg4.sha256 [72, 105])] :=
  ⟨rfl, rfl, rfl⟩

theorem instFmtRel_sortFilesIfCab (i : Installation) : InstFmtRel i (sortFilesIfCab i) := by
  obtain ⟨ht, hd, hlp, hu, hf⟩ := sortFilesIfCab_spec i
  refine ⟨ht, hlp, hu, hd, ?_⟩
  rw [hf]
  split
  · exact perm_insertionSortB _ _
  · exact List.Perm.refl _

theorem formatFontPre_rel (uuid : Nat → String) (f : FontSrc) (st : FormatState)
    (hx : f.extra = []) :
    FontFmtRel uuid f (formatFontProj (formatFontPre uuid f st).1) := by
  have hperm :
      List.Perm
        (insertionSortB instFmtLeB
          ((insertionSortB instFmtLeB f.installations).map sortFilesIfCab))
        (f.installations.map sortFilesIfCab) :=
    (perm_insertionSortB _ _).trans
      ((perm_insertionSortB instFmtLeB f.installations).map sortFilesIfCab)
  have hforall :
      List.Forall₂ InstFmtRel f.installations (f.installations.map sortFilesIfCab) :=
    forall2_map_self fun i _ => instFmtRel_sortFilesIfCab i
  by_cases hid : f.id = "<UUID>"
  · simp only [formatFontPre, formatFontProj, if_pos hid]
    exact ⟨fun _ => ⟨st.uuidCount, rfl⟩, fun hne => absurd hid hne, rfl, rfl, rfl,
      perm_insertionSortB _ _, hx.symm,
      f.installations.map sortFilesIfCab, hforall, hperm⟩
  · simp only [formatFontPre, formatFontProj, if_neg hid]
    exact ⟨fun he => absurd he hid, fun _ => rfl, rfl, rfl, rfl,
      perm_insertionSortB _ _, hx.symm,
      f.installations.map sortFilesIfCab, hforall, hperm⟩

theorem formatFontsPre_rel (uuid : Nat → String) :
    ∀ (l : List FontSrc) (st : FormatState), (∀ f ∈ l, f.extra = []) →
      List.Forall₂ (fun f f1 => FontFmtRel uuid f (formatFontProj f1)) l
        (formatFontsPre uuid l st).1
  | [], _, _ => List.Forall₂.nil
  | f :: rest, st, hx => by
    simp only [formatFontsPre]
    exact List.Forall₂.cons
      (formatFontPre_rel uuid f st (hx f (List.mem_cons_self _ _)))
      (formatFontsPre_rel uuid rest _ fun g hg => hx g (List.mem_cons_of_mem _ hg))

/-- C9: format-pass frame property — on a catalog of the data model the
format pass only reorders arrays (installations, files, categories, fonts,
the font-id lists of groups and the groups themselves) and replaces the id
of every Font equal to the sentinel `<UUID>` with a freshly generated uuid;
fonts with any other id keep it, the dependency reference and `download`
fields of every installation are untouched, and the document's other
top-level attributes are untouched. -/
theorem claim9_format_frame (uuid : Nat → String) (c : Catalog)
    (hx : ∀ f ∈ c.fonts, f.extra = []) : Claim9Concl uuid c := by
  refine ⟨⟨(formatFontsPre uuid c.fonts { uuidCount := 0, newUUIDs := [] }).1.map
      formatFontProj, ?_, ?_⟩,
    ⟨c.groups.map (fun g => { g with fonts := insertionSortB strLeB g.fonts }), ?_, ?_⟩,
    rfl⟩
  · exact forall2_map_right formatFontProj (fun _ _ hb => hb)
      (formatFontsPre_rel uuid c.fonts _ hx)
  · simp only [formatPass]
    exact (perm_insertionSortB fontNameLeB _).map formatFontProj
  · exact forall2_map_self fun g _ => ⟨rfl, perm_insertionSortB _ _⟩
  · simp only [formatPass]
    exact perm_insertionSortB groupNameLeB _

/-- Witness for C9 at the concrete format scenario (one sentinel-id font,
one group). -/
theorem claim9_format_frame_witness :
    (∀ f ∈ catF.fonts, f.extra = []) ∧ Claim9Concl uuidT catF :=
  ⟨by decide, claim9_format_frame uuidT catF (by decide)⟩

theorem processFont_scrub (cfg : Config) (f : FontSrc) (s : BuildState) :
    processFont cfg (scrubFont f) s =
      ((processFont cfg f s).1.map scrubFont, (processFont cfg f s).2) := by
  cases hpl : processInstList cfg f.installations s with
  | mk r s1 =>
    cases r with
    | error e =>
      simp [processFont, scrubFont, hpl, Except.map]
    | ok insts =>
      simp [processFont, scrubFont, hpl, Except.map]

theorem processFonts_scrub (cfg : Config) (l : List FontSrc) :
    ∀ s : BuildState,
      processFonts cfg (l.map scrubFont) s =
        ((processFonts cfg l s).1.map (List.map scrubFont), (processFonts cfg l s).2) := by
  induction l with
  | nil =>
    intro s
    simp [processFonts, Except.map]
  | cons f rest ih =>
    intro s
    cases hpf : processFont cfg f s with
    | mk r s1 =>
      have hscr := processFont_scrub cfg f s
      rw [hpf] at hscr
      cases r with
      | error e =>
        simp only [Except.map] at hscr
        simp [List.map_cons, processFonts, hpf, hscr, Except.map]
      | ok f1 =>
        simp only [Except.map] at hscr
        cases hrest : processFonts cfg rest s1 with
        | mk r2 s2 =>
          have ihr := ih s1
          rw [hrest] at ihr
          cases r2 with
          | error e2 =>
            simp only [Except.map] at ihr
            simp [List.map_cons, processFonts, hpf, hscr, hrest, ihr, Except.map]
          | ok rest1 =>
            simp only [Except.map] at ihr
            simp [List.map_cons, processFonts, hpf, hscr, hrest, ihr, Except.map]

theorem processFont_shape {cfg : Config} {f : FontSrc} {s : BuildState} {f1 : FontSrc}
    {s1 : BuildState} (h : processFont cfg f s = (Except.ok f1, s1)) :
    f1.id = f.id ∧ f1.name = f.name ∧ f1.shortName = f.shortName ∧
    f1.publisher = f.publisher := by
  cases hpl : processInstList cfg f.installations s with
  | mk r s2 =>
    cases r with
    | error e => simp [processFont, hpl] at h
    | ok insts =>
      simp only [processFont, hpl, Prod.mk.injEq, Except.ok.injEq] at h
      obtain ⟨hf1, _⟩ := h
      subst hf1
      exact ⟨rfl, rfl, rfl, rfl⟩

theorem processFonts_shape {cfg : Config} :
    ∀ (l : List FontSrc) (s : BuildState) {l1 : List FontSrc} {s1 : BuildState},
      processFonts cfg l s = (Except.ok l1, s1) →
      List.Forall₂ (fun f f1 : FontSrc => f1.id = f.id ∧ f1.name = f.name ∧
        f1.shortName = f.shortName ∧ f1.publisher = f.publisher) l l1 := by
  intro l
  induction l with
  | nil =>
    intro s l1 s1 h
    simp only [processFonts, Prod.mk.injEq, Except.ok.injEq] at h
    obtain ⟨h1, _⟩ := h
    subst h1
    exact List.Forall₂.nil
  | cons f rest ih =>
    intro s l1 s1 h
    cases hpf : processFont cfg f s with
    | mk r smid =>
      cases r with
      | error e => simp [processFonts, hpf] at h
      | ok f1 =>
        cases hrest : processFonts cfg rest smid with
        | mk r2 send =>
          cases r2 with
          | error e => simp [processFonts, hpf, hrest] at h
          | ok rest1 =>
            simp only [processFonts, hpf, hrest, Prod.mk.injEq, Except.ok.injEq] at h
            obtain ⟨hl1, _⟩ := h
            subst hl1
            exact List.Forall₂.cons (processFont_shape hpf) (ih smid hrest)

theorem fontProj_scrub_sort (l : List FontSrc) :
    (insertionSortB fontNameLeB l).map fontProj =
      (insertionSortB fontNameLeB (l.map scrubFont)).map fontProj := by
  rw [insertionSortB_map fontNameLeB scrubFont (fun _ _ => rfl) l, List.map_map]
  exact (List.map_congr_left fun a _ => rfl).symm

theorem compile_scrub_eq (cfg : Config) (pre : List (String × Bytes)) (c1 c2 : Catalog)
    (hf : c1.fonts.map scrubFont = c2.fonts.map scrubFont) :
    compile cfg c1 pre = compile cfg c2 pre := by
  have h1 := processFonts_scrub cfg c1.fonts
    { initState pre with outDirFiles := [], outDirCleared := true }
  have h2 := processFonts_scrub cfg c2.fonts
    { initState pre with outDirFiles := [], outDirCleared := true }
  rw [hf] at h1
  have hkey := h1.symm.trans h2
  have hfst := congrArg Prod.fst hkey
  have hsnd := congrArg Prod.snd hkey
  simp only [] at hfst hsnd
  cases hP1 : processFonts cfg c1.fonts
      { initState pre with outDirFiles := [], outDirCleared := true } with
  | mk r1 t1 =>
    cases hP2 : processFonts cfg c2.fonts
        { initState pre with outDirFiles := [], outDirCleared := true } with
    | mk r2 t2 =>
      rw [hP1, hP2] at hfst hsnd
      simp only [] at hfst hsnd
      subst hsnd
      cases r1 with
      | error e1 =>
        cases r2 with
        | error e2 =>
          simp only [Except.map, Except.error.injEq] at hfst
          subst hfst
          simp [compile, hP1, hP2]
        | ok f2s => simp [Except.map] at hfst
      | ok f1s =>
        cases r2 with
        | error e2 => simp [Except.map] at hfst
        | ok f2s =>
          simp only [Except.map, Except.ok.injEq] at hfst
          have hfonts : (insertionSortB fontNameLeB f1s).map fontProj =
              (insertionSortB fontNameLeB f2s).map fontProj := by
            rw [fontProj_scrub_sort f1s, hfst, ← fontProj_scrub_sort f2s]
          simp [compile, hP1, hP2, hfonts]

/-- C10: output projection — the compiled document is a pure function of the
source fonts modulo their extra attributes: the source catalog's `groups` and
any other top-level attribute, and any extra attribute of a Font, never reach
the output (the output types `OutManifest`/`FontOut` carry exactly
`version`/`downloads`/`fonts` and the six documented font attributes), and
every compiled font's identity attributes come from a source font. -/
theorem claim10_output_projection (cfg : Config) (pre : List (String × Bytes))
    (c1 c2 : Catalog) (hf : c1.fonts.map scrubFont = c2.fonts.map scrubFont) :
    Claim10Concl cfg pre c1 c2 := by
  refine ⟨compile_scrub_eq cfg pre c1 c2 hf, ?_⟩
  intro out S h
  cases hP1 : processFonts cfg c1.fonts
      { initState pre with outDirFiles := [], outDirCleared := true } with
  | mk r1 t1 =>
    cases r1 with
    | error e1 => simp [compile, hP1] at h
    | ok f1s =>
      simp only [compile, hP1, Prod.mk.injEq, Except.ok.injEq] at h
      obtain ⟨hout, _⟩ := h
      subst hout
      refine ⟨rfl, ?_⟩
      intro f1 hf1
      obtain ⟨f2, hf2s, rfl⟩ := List.mem_map.mp hf1
      obtain ⟨fsrc, hfsrc, hR⟩ :=
        forall2_mem_right (processFonts_shape c1.fonts _ hP1) f2
          (mem_insertionSortB.mp hf2s)
      exact ⟨fsrc, hfsrc, hR.1, hR.2.1, hR.2.2.1, hR.2.2.2⟩

/-- Witness for C10: two catalogs that differ in font extras, groups and
other top-level attributes compile identically. -/
theorem claim10_output_projection_witness :
    c10a.fonts.map scrubFont = c10b.fonts.map scrubFont ∧
    Claim10Concl cfgT [] c10a c10b :=
  ⟨by decide, claim10_output_projection cfgT [] c10a c10b (by decide)⟩

end WineFonts
